import Mathlib

/-!
# Verification of the kaze graph-to-code compiler backend

A shallow embedding of the signal compiler (`src/kaze/src/sim/compiler.rs`),
the register discovery pass, and the Verilog register/memory emission loops
(`src/kaze/src/verilog.rs`), together with proofs of the specified
properties.  Rust `HashMap`s are modelled as association lists, arena
pointers as indices, and context pointers as instance-id paths (contexts are
interned per path, so path equality coincides with pointer equality).
Panics (`unreachable!`, indexing panics, `unwrap`) are modelled by `Option`;
recursion over the user graph is modelled with explicit fuel.
-/

namespace Kaze

/-! ## Decimal rendering facts

The compiler builds storage and temporary names with `format!("... {}", n)`,
i.e. decimal rendering of a counter, which Lean's `Nat.repr` models exactly.
Uniqueness of generated names rests on these facts about `Nat.toDigitsCore`.
-/

/-- Numeric value of a decimal digit character. -/
def digVal (c : Char) : Nat :=
  if c = '0' then 0 else if c = '1' then 1 else if c = '2' then 2 else
  if c = '3' then 3 else if c = '4' then 4 else if c = '5' then 5 else
  if c = '6' then 6 else if c = '7' then 7 else if c = '8' then 8 else
  if c = '9' then 9 else 0

/-- Value of a big-endian decimal digit string. -/
def decVal (l : List Char) : Nat := l.foldl (fun a c => a * 10 + digVal c) 0

theorem toDigitsCore_append (f : Nat) :
    ∀ (n : Nat) (ds : List Char),
      Nat.toDigitsCore 10 f n ds = Nat.toDigitsCore 10 f n [] ++ ds := by
  induction f with
  | zero => intro n ds; simp [Nat.toDigitsCore]
  | succ f ih =>
    intro n ds
    simp only [Nat.toDigitsCore]
    by_cases h : n / 10 = 0
    · simp [h]
    · simp only [h, if_false]
      rw [ih (n / 10) (Nat.digitChar (n % 10) :: ds),
        ih (n / 10) [Nat.digitChar (n % 10)]]
      simp

theorem decVal_append_singleton (l : List Char) (c : Char) :
    decVal (l ++ [c]) = decVal l * 10 + digVal c := by
  simp [decVal, List.foldl_append]

theorem digVal_digitChar : ∀ m : Nat, m < 10 → digVal (Nat.digitChar m) = m := by
  decide

theorem decVal_toDigitsCore (f : Nat) :
    ∀ n : Nat, n < f → decVal (Nat.toDigitsCore 10 f n []) = n := by
  induction f with
  | zero => intro n h; omega
  | succ f ih =>
    intro n h
    simp only [Nat.toDigitsCore]
    by_cases h0 : n / 10 = 0
    · simp only [h0, if_true]
      have hlt : n < 10 := by omega
      have : n % 10 = n := Nat.mod_eq_of_lt hlt
      simp [decVal, this, digVal_digitChar n hlt]
    · simp only [h0, if_false]
      rw [toDigitsCore_append, decVal_append_singleton, ih (n / 10) (by omega),
        digVal_digitChar (n % 10) (Nat.mod_lt n (by omega))]
      omega

theorem decVal_repr_data (n : Nat) : decVal (Nat.repr n).data = n := by
  show decVal (Nat.toDigitsCore 10 (n + 1) n []) = n
  exact decVal_toDigitsCore (n + 1) n (Nat.lt_succ_self n)

theorem repr_injective {m n : Nat} (h : Nat.repr m = Nat.repr n) : m = n := by
  have := congrArg (fun s : String => decVal s.data) h
  simpa [decVal_repr_data] using this

theorem digitChar_ne_underscore : ∀ m : Nat, m < 10 → Nat.digitChar m ≠ '_' := by
  decide

theorem toDigitsCore_ne_underscore (f : Nat) :
    ∀ (n : Nat) (ds : List Char), (∀ c ∈ ds, c ≠ '_') →
      ∀ c ∈ Nat.toDigitsCore 10 f n ds, c ≠ '_' := by
  induction f with
  | zero => intro n ds hds; simpa [Nat.toDigitsCore] using hds
  | succ f ih =>
    intro n ds hds
    have hd : Nat.digitChar (n % 10) ≠ '_' :=
      digitChar_ne_underscore (n % 10) (Nat.mod_lt n (by omega))
    simp only [Nat.toDigitsCore]
    by_cases h : n / 10 = 0
    · simp only [h, if_true]
      intro c hc
      rcases List.mem_cons.mp hc with rfl | hc
      · exact hd
      · exact hds c hc
    · simp only [h, if_false]
      refine ih (n / 10) (Nat.digitChar (n % 10) :: ds) ?_
      intro c hc
      rcases List.mem_cons.mp hc with rfl | hc
      · exact hd
      · exact hds c hc

theorem repr_data_ne_underscore (n : Nat) :
    ∀ c ∈ (Nat.repr n).data, c ≠ '_' := by
  have : (Nat.repr n).data = Nat.toDigitsCore 10 (n + 1) n [] := rfl
  rw [this]
  exact toDigitsCore_ne_underscore (n + 1) n [] (by simp)

/-- If two strings each ending in an underscore-free tail agree, so do the
tails: the segment after the last `'_'` is determined. -/
theorem append_underscore_cancel :
    ∀ (a : List Char) (x : List Char) (b : List Char) (y : List Char),
      (∀ c ∈ x, c ≠ '_') → (∀ c ∈ y, c ≠ '_') →
      a ++ '_' :: x = b ++ '_' :: y → x = y := by
  intro a
  induction a with
  | nil =>
    intro x b y hx hy h
    cases b with
    | nil => simpa using h
    | cons d b' =>
      simp only [List.nil_append, List.cons_append, List.cons.injEq] at h
      obtain ⟨rfl, rfl⟩ := h
      exact absurd rfl (hx '_' (List.mem_append_right b' (List.mem_cons_self _ _)))
  | cons c a' ih =>
    intro x b y hx hy h
    cases b with
    | nil =>
      simp only [List.nil_append, List.cons_append, List.cons.injEq] at h
      obtain ⟨rfl, h⟩ := h
      exact absurd rfl (hy '_' (h ▸ List.mem_append_right a' (List.mem_cons_self _ _)))
    | cons d b' =>
      simp only [List.cons_append, List.cons.injEq] at h
      exact ih x b' y hx hy h.2

/-- Names of the form `prefix_<N>` (with `N` rendered in decimal) determine
`N`, whatever the prefixes are, as long as each prefix ends in `'_'`. -/
theorem name_index_injective (p q : String) (i j : Nat)
    (h : p ++ "_" ++ Nat.repr i = q ++ "_" ++ Nat.repr j) : i = j := by
  have hd := congrArg String.data h
  simp only [String.data_append] at hd
  have : p.data ++ '_' :: (Nat.repr i).data = q.data ++ '_' :: (Nat.repr j).data := by
    simpa using hd
  have := append_underscore_cancel p.data (Nat.repr i).data q.data (Nat.repr j).data
    (repr_data_ne_underscore i) (repr_data_ne_underscore j) this
  have : Nat.repr i = Nat.repr j := congrArg List.asString this
  exact repr_injective this

/-! ## The signal graph (`crate::graph`)

The graph is owned by an external arena; we model arena references as
indices (`Nat`) into the lists held by `Graph`.  A `ModuleContext` is
interned per instance path, so it is modelled as the path itself: the list
of instance indices from the current module up to the root (`[]` is the
root context, and `get_child(instance)` conses the instance index).
-/

/-- Association-list lookup, modelling `HashMap` indexing. -/
def mapLookup {α β : Type} [DecidableEq α] (k : α) : List (α × β) → Option β
  | [] => none
  | (a, b) :: t => if a = k then some b else mapLookup k t

namespace graph

inductive Constant
  | Bool (value : Bool)
  | U32 (value : Nat)
  | U64 (value : Nat)
  | U128 (value : Nat)
  deriving DecidableEq, Repr

/-- `Constant::numeric_value`, the value as a `u128`. -/
def Constant.numericValue : Constant → Nat
  | .Bool value => if value then 1 else 0
  | .U32 value => value
  | .U64 value => value
  | .U128 value => value

inductive UnOp
  | Not
  deriving DecidableEq, Repr

inductive SimpleBinOp
  | BitAnd
  | BitOr
  | BitXor
  deriving DecidableEq, Repr

inductive AdditiveBinOp
  | Add
  | Sub
  deriving DecidableEq, Repr

inductive ComparisonBinOp
  | Equal
  | NotEqual
  | LessThan
  | LessThanEqual
  | GreaterThan
  | GreaterThanEqual
  | LessThanSigned
  | LessThanEqualSigned
  | GreaterThanSigned
  | GreaterThanEqualSigned
  deriving DecidableEq, Repr

inductive ShiftBinOp
  | Shl
  | Shr
  deriving DecidableEq, Repr

/-- `graph::SignalData`: one node of the user's signal graph.  Children are
arena indices; `Reg` holds the index of its `RegisterData`;
`InstanceOutput` holds the index of its `Instance`. -/
inductive SignalData
  | Lit (value : Constant) (bitWidth : Nat)
  | Input (name : String) (bitWidth : Nat)
  | Reg (data : Nat)
  | UnOp (source : Nat) (op : UnOp)
  | SimpleBinOp (lhs rhs : Nat) (op : SimpleBinOp)
  | AdditiveBinOp (lhs rhs : Nat) (op : AdditiveBinOp)
  | ComparisonBinOp (lhs rhs : Nat) (op : ComparisonBinOp)
  | ShiftBinOp (lhs rhs : Nat) (op : ShiftBinOp)
  | Bits (source : Nat) (rangeHigh rangeLow : Nat)
  | Repeat (source : Nat) (count : Nat)
  | Concat (lhs rhs : Nat)
  | Mux (cond whenTrue whenFalse : Nat)
  | InstanceOutput (inst : Nat) (name : String)
  deriving DecidableEq, Repr

/-- `graph::RegisterData`: `next` is the mutable cell holding the driving
signal (`None` until driven). -/
structure RegisterData where
  name : String
  bitWidth : Nat
  initialValue : Option Constant
  next : Option Nat
  deriving DecidableEq, Repr

/-- `graph::Instance`: `driven_inputs` maps an input name of the
instantiated module to the driving signal in the parent module. -/
structure Instance where
  instantiatedModule : Nat
  drivenInputs : List (String × Nat)
  deriving DecidableEq, Repr

/-- `graph::Module` (as consumed by the sim compiler): output name →
driving signal. -/
structure Module where
  outputs : List (String × Nat)
  deriving DecidableEq, Repr

/-- The arena owning the graph. -/
structure Graph where
  signals : List SignalData
  regDatas : List RegisterData
  instances : List Instance
  modules : List Module
  deriving DecidableEq, Repr

end graph

/-- A `ModuleContext`, identified by its instance path (innermost first;
`[]` is the root context). -/
abbrev Ctx := List Nat

/-- Modelled from the spec (`internal_signal.rs` is not under `src/`):
`Signal::bit_width()`, the logical bit width of a signal, per the width
table of spec §3. -/
def signalBitWidth (g : graph.Graph) : Nat → Nat → Option Nat
  | 0, _ => none
  | fuel + 1, sid => do
    let sd ← g.signals[sid]?
    match sd with
    | .Lit _ bitWidth => some bitWidth
    | .Input _ bitWidth => some bitWidth
    | .Reg data => do
      let rd ← g.regDatas[data]?
      some rd.bitWidth
    | .UnOp source _ => signalBitWidth g fuel source
    | .SimpleBinOp lhs _ _ => signalBitWidth g fuel lhs
    | .AdditiveBinOp lhs _ _ => signalBitWidth g fuel lhs
    | .ComparisonBinOp _ _ _ => some 1
    | .ShiftBinOp lhs _ _ => signalBitWidth g fuel lhs
    | .Bits _ rangeHigh rangeLow => some (rangeHigh - rangeLow + 1)
    | .Repeat source count => do
      let w ← signalBitWidth g fuel source
      some (w * count)
    | .Concat lhs rhs => do
      let wl ← signalBitWidth g fuel lhs
      let wr ← signalBitWidth g fuel rhs
      some (wl + wr)
    | .Mux _ whenTrue _ => signalBitWidth g fuel whenTrue
    | .InstanceOutput inst name => do
      let i ← g.instances[inst]?
      let m ← g.modules[i.instantiatedModule]?
      let out ← mapLookup name m.outputs
      signalBitWidth g fuel out

/-! ## The sim expression IR (`crate::sim::ir`)

`sim/ir.rs` is not under `src/`; the `Expr`, `Constant`, `ValueType` shapes
below are modelled from the spec (§4.1, §4.4 "Expression IR") and from
their uses in `sim/compiler.rs`.
-/

namespace sim

inductive ValueType
  | Bool
  | I32
  | I64
  | I128
  | U32
  | U64
  | U128
  deriving DecidableEq, Repr

/-- Modelled from the spec §4.1: `ValueType::from_bit_width`. -/
def ValueType.fromBitWidth (bitWidth : Nat) : ValueType :=
  if bitWidth = 1 then .Bool
  else if bitWidth ≤ 32 then .U32
  else if bitWidth ≤ 64 then .U64
  else .U128

/-- Modelled from the spec §4.1: the native width of a `ValueType`. -/
def ValueType.bitWidth : ValueType → Nat
  | .Bool => 1
  | .I32 | .U32 => 32
  | .I64 | .U64 => 64
  | .I128 | .U128 => 128

/-- Modelled from the spec §4.1: the signed sibling of an unsigned
`ValueType` (`I32`/`I64`/`I128`); undefined elsewhere. -/
def ValueType.toSigned : ValueType → Option ValueType
  | .U32 => some .I32
  | .U64 => some .I64
  | .U128 => some .I128
  | _ => none

inductive Constant
  | Bool (value : Bool)
  | U32 (value : Nat)
  | U64 (value : Nat)
  | U128 (value : Nat)
  deriving DecidableEq, Repr

inductive UnOp
  | Not
  deriving DecidableEq, Repr

inductive InfixBinOp
  | BitAnd
  | BitOr
  | BitXor
  | Shl
  | Shr
  | Equal
  | NotEqual
  | LessThan
  | LessThanEqual
  | GreaterThan
  | GreaterThanEqual
  deriving DecidableEq, Repr

inductive RefScope
  | Local
  | Member
  deriving DecidableEq, Repr

inductive TargetScope
  | Local
  | Member
  deriving DecidableEq, Repr

inductive Expr
  | Constant (value : Constant)
  | Ref (name : String) (scope : RefScope)
  | UnOp (source : Expr) (op : UnOp)
  | InfixBinOp (lhs rhs : Expr) (op : InfixBinOp)
  | UnaryMemberCall (target : Expr) (name : String) (arg : Expr)
  | BinaryFunctionCall (name : String) (lhs rhs : Expr)
  | Cast (source : Expr) (targetType : ValueType)
  | Ternary (cond whenTrue whenFalse : Expr)
  deriving DecidableEq, Repr

structure Assignment where
  targetScope : TargetScope
  targetName : String
  expr : Expr
  deriving DecidableEq, Repr

/-! ## The sim compiler (`src/kaze/src/sim/compiler.rs`) -/

/-- `CompiledRegister`: `data` is the index of the register's
`RegisterData` in the graph arena. -/
structure CompiledRegister where
  data : Nat
  valueName : String
  nextName : String
  deriving DecidableEq, Repr

/-- The `Compiler` state: the two memoization maps keyed by
`(context, signal)`, the ordered assignment list, and the temp counter. -/
structure Compiler where
  regs : List ((Ctx × Nat) × CompiledRegister)
  signalExprs : List ((Ctx × Nat) × Expr)
  propAssignments : List Assignment
  localCount : Nat
  deriving DecidableEq, Repr

def Compiler.new : Compiler :=
  { regs := [], signalExprs := [], propAssignments := [], localCount := 0 }

/-- `Compiler::gen_temp`. -/
def genTemp (st : Compiler) (expr : Expr) : Expr × Compiler :=
  let targetName := "__temp_" ++ Nat.repr st.localCount
  let st := { st with
    localCount := st.localCount + 1,
    propAssignments := st.propAssignments ++
      [{ targetScope := .Local, targetName := targetName, expr := expr }] }
  (Expr.Ref targetName RefScope.Local, st)

/-- `Compiler::gen_mask`.  The `unreachable!` arms for `Bool` and signed
mask types are modelled as `none`. -/
def genMask (st : Compiler) (expr : Expr) (bitWidth : Nat)
    (targetType : ValueType) : Option (Expr × Compiler) :=
  if bitWidth = targetType.bitWidth then
    some (expr, st)
  else
    let mask := 2 ^ bitWidth - 1
    match targetType with
    | .Bool | .I32 | .I64 | .I128 => none
    | .U32 => some (genTemp st (Expr.InfixBinOp expr
        (Expr.Constant (Constant.U32 (mask % 2 ^ 32))) InfixBinOp.BitAnd))
    | .U64 => some (genTemp st (Expr.InfixBinOp expr
        (Expr.Constant (Constant.U64 (mask % 2 ^ 64))) InfixBinOp.BitAnd))
    | .U128 => some (genTemp st (Expr.InfixBinOp expr
        (Expr.Constant (Constant.U128 mask)) InfixBinOp.BitAnd))

/-- `Compiler::gen_shift_left`. -/
def genShiftLeft (st : Compiler) (expr : Expr) (shift : Nat) : Expr × Compiler :=
  if shift = 0 then
    (expr, st)
  else
    genTemp st (Expr.InfixBinOp expr (Expr.Constant (Constant.U32 shift)) InfixBinOp.Shl)

/-- `Compiler::gen_shift_right`. -/
def genShiftRight (st : Compiler) (expr : Expr) (shift : Nat) : Expr × Compiler :=
  if shift = 0 then
    (expr, st)
  else
    genTemp st (Expr.InfixBinOp expr (Expr.Constant (Constant.U32 shift)) InfixBinOp.Shr)

/-- `Compiler::gen_cast`.  The `unreachable!` arm choosing the zero
constant is modelled as `none`. -/
def genCast (st : Compiler) (expr : Expr) (sourceType targetType : ValueType) :
    Option (Expr × Compiler) :=
  if sourceType = targetType then
    some (expr, st)
  else if targetType = ValueType.Bool then
    match genMask st expr 1 sourceType with
    | none => none
    | some (expr, st) =>
      match (match sourceType with
        | .Bool | .I32 | .I64 | .I128 => none
        | .U32 => some (Constant.U32 0)
        | .U64 => some (Constant.U64 0)
        | .U128 => some (Constant.U128 0)) with
      | none => none
      | some zero =>
        some (genTemp st (Expr.InfixBinOp expr (Expr.Constant zero) InfixBinOp.NotEqual))
  else
    some (genTemp st (Expr.Cast expr targetType))

/-- `Compiler::gen_sign_extend_shifts`. -/
def genSignExtendShifts (st : Compiler) (expr : Expr) (sourceBitWidth : Nat)
    (targetType : ValueType) : Expr × Compiler :=
  let shift := targetType.bitWidth - sourceBitWidth
  let (expr, st) := genShiftLeft st expr shift
  genShiftRight st expr shift

/-- `Compiler::gather_regs`: the register discovery DFS.  Recursion over
the (possibly register-cyclic) graph is modelled with fuel; `none` models
both fuel exhaustion and the panics (`unwrap` of an undriven register,
missing map entries). -/
def gatherRegs (g : graph.Graph) : Nat → Nat → Ctx → Compiler → Option Compiler
  | 0, _, _, _ => none
  | fuel + 1, sid, ctx, st => do
    let sd ← g.signals[sid]?
    match sd with
    | .Lit _ _ => some st
    | .Input name _ =>
      match ctx with
      | inst :: parent => do
        let i ← g.instances[inst]?
        let d ← mapLookup name i.drivenInputs
        gatherRegs g fuel d parent st
      | [] => some st
    | .Reg data =>
      let key : Ctx × Nat := (ctx, sid)
      match mapLookup key st.regs with
      | some _ => some st
      | none => do
        let rd ← g.regDatas[data]?
        let valueName := "__reg_" ++ rd.name ++ "_" ++ Nat.repr st.regs.length
        let nextName := valueName ++ "_next"
        let st := { st with regs := st.regs ++
          [(key, { data := data, valueName := valueName, nextName := nextName })] }
        let nxt ← rd.next
        gatherRegs g fuel nxt ctx st
    | .UnOp source _ => gatherRegs g fuel source ctx st
    | .SimpleBinOp lhs rhs _ => do
      let st ← gatherRegs g fuel lhs ctx st
      gatherRegs g fuel rhs ctx st
    | .AdditiveBinOp lhs rhs _ => do
      let st ← gatherRegs g fuel lhs ctx st
      gatherRegs g fuel rhs ctx st
    | .ComparisonBinOp lhs rhs _ => do
      let st ← gatherRegs g fuel lhs ctx st
      gatherRegs g fuel rhs ctx st
    | .ShiftBinOp lhs rhs _ => do
      let st ← gatherRegs g fuel lhs ctx st
      gatherRegs g fuel rhs ctx st
    | .Bits source _ _ => gatherRegs g fuel source ctx st
    | .Repeat source _ => gatherRegs g fuel source ctx st
    | .Concat lhs rhs => do
      let st ← gatherRegs g fuel lhs ctx st
      gatherRegs g fuel rhs ctx st
    | .Mux cond whenTrue whenFalse => do
      let st ← gatherRegs g fuel cond ctx st
      let st ← gatherRegs g fuel whenTrue ctx st
      gatherRegs g fuel whenFalse ctx st
    | .InstanceOutput inst name => do
      let i ← g.instances[inst]?
      let m ← g.modules[i.instantiatedModule]?
      let out ← mapLookup name m.outputs
      gatherRegs g fuel out (inst :: ctx) st

/-- The body of `compile_signal`'s `match signal.data` (the lowering rule
for each variant), at memoization-miss.  `recur` is the recursive
`compile_signal` call (with one unit of fuel consumed) and `wfuel` is the
fuel handed to the (pure) `bit_width` computations. -/
def compileSignalData (g : graph.Graph)
    (recur : Nat → Ctx → Compiler → Option (Expr × Compiler))
    (wfuel : Nat) (sid : Nat)
    (sd : graph.SignalData) (ctx : Ctx) (st : Compiler) :
    Option (Expr × Compiler) :=
  let key : Ctx × Nat := (ctx, sid)
  match sd with
        | .Lit value bitWidth =>
          let v := value.numericValue
          let targetType := ValueType.fromBitWidth bitWidth
          match targetType with
          | .Bool => some (Expr.Constant (Constant.Bool (v ≠ 0)), st)
          | .I32 | .I64 | .I128 => none
          | .U32 => some (Expr.Constant (Constant.U32 (v % 2 ^ 32)), st)
          | .U64 => some (Expr.Constant (Constant.U64 (v % 2 ^ 64)), st)
          | .U128 => some (Expr.Constant (Constant.U128 v), st)
        | .Input name bitWidth =>
          match ctx with
          | inst :: parent => do
            let i ← g.instances[inst]?
            let d ← mapLookup name i.drivenInputs
            recur d parent st
          | [] =>
            let targetType := ValueType.fromBitWidth bitWidth
            let expr := Expr.Ref name RefScope.Member
            genMask st expr bitWidth targetType
        | .Reg _ => do
          let cr ← mapLookup key st.regs
          some (Expr.Ref cr.valueName RefScope.Member, st)
        | .UnOp source op => do
          let (expr, st) ← recur source ctx st
          let (expr, st) := genTemp st (Expr.UnOp expr (match op with
            | .Not => UnOp.Not))
          let bitWidth ← signalBitWidth g wfuel source
          let targetType := ValueType.fromBitWidth bitWidth
          genMask st expr bitWidth targetType
        | .SimpleBinOp lhs rhs op => do
          let (lhsE, st) ← recur lhs ctx st
          let (rhsE, st) ← recur rhs ctx st
          some (genTemp st (Expr.InfixBinOp lhsE rhsE (match op with
            | .BitAnd => InfixBinOp.BitAnd
            | .BitOr => InfixBinOp.BitOr
            | .BitXor => InfixBinOp.BitXor)))
        | .AdditiveBinOp lhs rhs op => do
          let sourceBitWidth ← signalBitWidth g wfuel lhs
          let sourceType := ValueType.fromBitWidth sourceBitWidth
          let (lhsE, st) ← recur lhs ctx st
          let (rhsE, st) ← recur rhs ctx st
          let opInputType := match sourceType with
            | .Bool => ValueType.U32
            | _ => sourceType
          let (lhsE, st) ← genCast st lhsE sourceType opInputType
          let (rhsE, st) ← genCast st rhsE sourceType opInputType
          let (expr, st) := genTemp st (Expr.UnaryMemberCall lhsE (match op with
            | .Add => "wrapping_add"
            | .Sub => "wrapping_sub") rhsE)
          let opOutputType := opInputType
          let targetBitWidth ← signalBitWidth g wfuel sid
          let targetType := ValueType.fromBitWidth targetBitWidth
          let (expr, st) ← genCast st expr opOutputType targetType
          genMask st expr targetBitWidth targetType
        | .ComparisonBinOp lhs rhs op => do
          let sourceBitWidth ← signalBitWidth g wfuel lhs
          let sourceType := ValueType.fromBitWidth sourceBitWidth
          let (lhsE, st) ← recur lhs ctx st
          let (rhsE, st) ← recur rhs ctx st
          let (lhsE, rhsE, st) ← (match op with
            | .GreaterThanEqualSigned | .GreaterThanSigned
            | .LessThanEqualSigned | .LessThanSigned => do
              let sourceTypeSigned ← sourceType.toSigned
              let (lhsE, st) ← genCast st lhsE sourceType sourceTypeSigned
              let (rhsE, st) ← genCast st rhsE sourceType sourceTypeSigned
              let (lhsE, st) := genSignExtendShifts st lhsE sourceBitWidth sourceTypeSigned
              let (rhsE, st) := genSignExtendShifts st rhsE sourceBitWidth sourceTypeSigned
              some (lhsE, rhsE, st)
            | _ => some (lhsE, rhsE, st))
          some (genTemp st (Expr.InfixBinOp lhsE rhsE (match op with
            | .Equal => InfixBinOp.Equal
            | .NotEqual => InfixBinOp.NotEqual
            | .LessThan | .LessThanSigned => InfixBinOp.LessThan
            | .LessThanEqual | .LessThanEqualSigned => InfixBinOp.LessThanEqual
            | .GreaterThan | .GreaterThanSigned => InfixBinOp.GreaterThan
            | .GreaterThanEqual | .GreaterThanEqualSigned =>
              InfixBinOp.GreaterThanEqual)))
        | .ShiftBinOp lhs rhs op => do
          let lhsSourceBitWidth ← signalBitWidth g wfuel lhs
          let lhsSourceType := ValueType.fromBitWidth lhsSourceBitWidth
          let rhsSourceBitWidth ← signalBitWidth g wfuel rhs
          let rhsSourceType := ValueType.fromBitWidth rhsSourceBitWidth
          let (lhsE, st) ← recur lhs ctx st
          let (rhsE, st) ← recur rhs ctx st
          let lhsOpInputType := match lhsSourceType with
            | .Bool => ValueType.U32
            | _ => lhsSourceType
          let (lhsE, st) ← genCast st lhsE lhsSourceType lhsOpInputType
          let rhsOpInputType := match rhsSourceType with
            | .Bool => ValueType.U32
            | _ => rhsSourceType
          let (rhsE, st) ← genCast st rhsE rhsSourceType rhsOpInputType
          let maxConst ← (match rhsOpInputType with
            | .Bool | .I32 | .I64 | .I128 => none
            | .U32 => some (Constant.U32 (2 ^ 32 - 1))
            | .U64 => some (Constant.U64 (2 ^ 32 - 1))
            | .U128 => some (Constant.U128 (2 ^ 32 - 1)))
          let rhsE := Expr.BinaryFunctionCall "std::cmp::min" rhsE
            (Expr.Constant maxConst)
          let (rhsE, st) ← genCast st rhsE lhsOpInputType ValueType.U32
          let expr := Expr.UnaryMemberCall lhsE (match op with
            | .Shl => "checked_shl"
            | .Shr => "checked_shr") rhsE
          let zeroConst ← (match lhsOpInputType with
            | .Bool | .I32 | .I64 | .I128 => none
            | .U32 => some (Constant.U32 0)
            | .U64 => some (Constant.U64 0)
            | .U128 => some (Constant.U128 0))
          let (expr, st) := genTemp st
            (Expr.UnaryMemberCall expr "unwrap_or" (Expr.Constant zeroConst))
          let opOutputType := lhsOpInputType
          let targetBitWidth ← signalBitWidth g wfuel sid
          let targetType := ValueType.fromBitWidth targetBitWidth
          let (expr, st) ← genCast st expr opOutputType targetType
          genMask st expr targetBitWidth targetType
        | .Bits source _ rangeLow => do
          let (expr, st) ← recur source ctx st
          let (expr, st) := genShiftRight st expr rangeLow
          let targetBitWidth ← signalBitWidth g wfuel sid
          let targetType := ValueType.fromBitWidth targetBitWidth
          let sourceBitWidth ← signalBitWidth g wfuel source
          let (expr, st) ← genCast st expr (ValueType.fromBitWidth sourceBitWidth)
            targetType
          genMask st expr targetBitWidth targetType
        | .Repeat source count => do
          let (expr, st) ← recur source ctx st
          let sourceBitWidth ← signalBitWidth g wfuel source
          let signalBW ← signalBitWidth g wfuel sid
          let (expr, st) ← genCast st expr (ValueType.fromBitWidth sourceBitWidth)
            (ValueType.fromBitWidth signalBW)
          if count > 1 then
            let sourceExpr := expr
            some ((List.range' 1 (count - 1)).foldl (fun (p : Expr × Compiler) i =>
              let (expr, st) := p
              let (rhsE, st) := genShiftLeft st sourceExpr (i * sourceBitWidth)
              genTemp st (Expr.InfixBinOp expr rhsE InfixBinOp.BitOr)) (expr, st))
          else
            some (expr, st)
        | .Concat lhs rhs => do
          let lhsBW ← signalBitWidth g wfuel lhs
          let lhsType := ValueType.fromBitWidth lhsBW
          let rhsBitWidth ← signalBitWidth g wfuel rhs
          let rhsType := ValueType.fromBitWidth rhsBitWidth
          let (lhsE, st) ← recur lhs ctx st
          let (rhsE, st) ← recur rhs ctx st
          let targetBW ← signalBitWidth g wfuel sid
          let targetType := ValueType.fromBitWidth targetBW
          let (lhsE, st) ← genCast st lhsE lhsType targetType
          let (rhsE, st) ← genCast st rhsE rhsType targetType
          let (lhsE, st) := genShiftLeft st lhsE rhsBitWidth
          some (genTemp st (Expr.InfixBinOp lhsE rhsE InfixBinOp.BitOr))
        | .Mux cond whenTrue whenFalse => do
          let (condE, st) ← recur cond ctx st
          let (tE, st) ← recur whenTrue ctx st
          let (fE, st) ← recur whenFalse ctx st
          some (genTemp st (Expr.Ternary condE tE fE))
        | .InstanceOutput inst name => do
          let i ← g.instances[inst]?
          let m ← g.modules[i.instantiatedModule]?
          let out ← mapLookup name m.outputs
          recur out (inst :: ctx) st

/-- `Compiler::compile_signal`: the memoized recursive lowering.  Returns
the `Expr` for the signal and the updated compiler state.  Recursion over
the graph is modelled with fuel. -/
def compileSignal (g : graph.Graph) : Nat → Nat → Ctx → Compiler →
    Option (Expr × Compiler)
  | 0, _, _, _ => none
  | fuel + 1, sid, ctx, st =>
    match mapLookup (ctx, sid) st.signalExprs with
    | some e => some (e, st)
    | none =>
      match g.signals[sid]? with
      | none => none
      | some sd =>
        match compileSignalData g (fun s c stx => compileSignal g fuel s c stx)
            (fuel + 1) sid sd ctx st with
        | none => none
        | some (expr, st1) =>
          let st2 := { st1 with signalExprs := ((ctx, sid), expr) :: st1.signalExprs }
          match mapLookup (ctx, sid) st2.signalExprs with
          | none => none
          | some e => some (e, st2)

end sim

/-! ## Basic facts about the association-list maps -/

theorem mapLookup_mem {α β : Type} [DecidableEq α] {k : α} {v : β} :
    ∀ {l : List (α × β)}, mapLookup k l = some v → (k, v) ∈ l := by
  intro l
  induction l with
  | nil => intro h; simp [mapLookup] at h
  | cons p t ih =>
    intro h
    obtain ⟨x, y⟩ := p
    rw [mapLookup] at h
    split at h
    · rename_i hx
      cases h
      exact hx ▸ List.mem_cons_self _ _
    · exact List.mem_cons_of_mem _ (ih h)

namespace sim

/-! ## Memoization (claim C2) -/

/-- On success, `compile_signal`'s result is exactly what the memo table of
the final state holds for its `(context, signal)` key: the function ends
with `self.signal_exprs[&key].clone()`, inserting first on a miss. -/
theorem compileSignal_lookup_of_success {g : graph.Graph} {f sid : Nat} {ctx : Ctx}
    {st : Compiler} {e : Expr} {st' : Compiler}
    (h : compileSignal g f sid ctx st = some (e, st')) :
    mapLookup (ctx, sid) st'.signalExprs = some e := by
  cases f with
  | zero => simp [compileSignal] at h
  | succ f =>
    rw [compileSignal] at h
    split at h
    · rename_i e0 he
      cases h
      exact he
    · split at h
      · cases h
      · split at h
        · cases h
        · rename_i expr st1 hdata
          simp only [mapLookup, if_pos rfl] at h
          cases h
          simp [mapLookup]

/-- C2: compiling the same `(context, signal)` pair a second time appends
nothing (the resulting state, in particular the assignment list, is
unchanged) and returns the same `Expr` as the first call. -/
theorem compileSignal_memoized {g : graph.Graph} {f sid : Nat} {ctx : Ctx}
    {st : Compiler} {e : Expr} {st' : Compiler}
    (h : compileSignal g f sid ctx st = some (e, st')) (fq : Nat) :
    compileSignal g (fq + 1) sid ctx st' = some (e, st') := by
  rw [compileSignal, compileSignal_lookup_of_success h]

/-! ## Shape and well-formedness of compiled expressions (claims C5, C6) -/

/-- Is the expression a plain reference? -/
def Expr.isRef : Expr → Bool
  | .Ref _ _ => true
  | _ => false

/-- Is the expression a plain reference or a constant? -/
def Expr.isRefOrConstant : Expr → Bool
  | .Ref _ _ => true
  | .Constant _ => true
  | _ => false

/-- The `Local`-scope reference names occurring in an expression. -/
def localNames : Expr → List String
  | .Constant _ => []
  | .Ref name scope => match scope with
    | .Local => [name]
    | .Member => []
  | .UnOp source _ => localNames source
  | .InfixBinOp lhs rhs _ => localNames lhs ++ localNames rhs
  | .UnaryMemberCall target _ arg => localNames target ++ localNames arg
  | .BinaryFunctionCall _ lhs rhs => localNames lhs ++ localNames rhs
  | .Cast source _ => localNames source
  | .Ternary cond whenTrue whenFalse =>
    localNames cond ++ localNames whenTrue ++ localNames whenFalse

/-- Every local reference in `e` is a temporary with index below `n`. -/
def exprOk (n : Nat) (e : Expr) : Prop :=
  ∀ s ∈ localNames e, ∃ j, j < n ∧ s = "__temp_" ++ Nat.repr j

theorem exprOk_mono {n m : Nat} {e : Expr} (h : exprOk n e) (hnm : n ≤ m) :
    exprOk m e := by
  intro s hs
  obtain ⟨j, hj, rfl⟩ := h s hs
  exact ⟨j, lt_of_lt_of_le hj hnm, rfl⟩

/-- Well-formedness of the compiler state: the assignment list has one
entry per allocated temporary, in counter order, each in dependency order,
and every memoized expression is a reference or constant whose local
references are allocated. -/
def StInv (st : Compiler) : Prop :=
  st.propAssignments.length = st.localCount ∧
  (∀ i (hi : i < st.propAssignments.length),
    (st.propAssignments.get ⟨i, hi⟩).targetScope = TargetScope.Local ∧
    (st.propAssignments.get ⟨i, hi⟩).targetName = "__temp_" ++ Nat.repr i ∧
    exprOk i (st.propAssignments.get ⟨i, hi⟩).expr) ∧
  (∀ p ∈ st.signalExprs,
    exprOk st.localCount p.2 ∧ p.2.isRefOrConstant = true)

/-- The second state continues the first: the counter only grows and the
assignment list is only appended to. -/
def Extends (st st' : Compiler) : Prop :=
  st.localCount ≤ st'.localCount ∧ st.propAssignments <+: st'.propAssignments

theorem Extends.refl (st : Compiler) : Extends st st :=
  ⟨le_refl _, List.prefix_refl _⟩

theorem Extends_trans {s1 s2 s3 : Compiler} (h1 : Extends s1 s2)
    (h2 : Extends s2 s3) : Extends s1 s3 :=
  ⟨le_trans h1.1 h2.1, List.IsPrefix.trans h1.2 h2.2⟩

/-- Contract of the expression-generator helpers (`gen_temp`, `gen_mask`,
`gen_cast`, the shift helpers) acting on input expression `inp`. -/
def GenOk (st : Compiler) (inp : Expr) (r : Expr × Compiler) : Prop :=
  StInv r.2 ∧ Extends st r.2 ∧ r.2.signalExprs = st.signalExprs ∧
  exprOk r.2.localCount r.1 ∧
  (inp.isRefOrConstant = true → r.1.isRefOrConstant = true)

/-- Contract of a (recursive) `compile_signal` call. -/
def CompOk (st : Compiler) (r : Expr × Compiler) : Prop :=
  StInv r.2 ∧ Extends st r.2 ∧ exprOk r.2.localCount r.1 ∧
  r.1.isRefOrConstant = true

theorem StInv_new : StInv Compiler.new := by
  refine ⟨rfl, ?_, ?_⟩
  · intro i hi
    simp [Compiler.new] at hi
  · intro p hp
    simp [Compiler.new] at hp

theorem get_append_singleton {α : Type} (l : List α) (a : α) (i : Nat)
    (hi : i < (l ++ [a]).length) :
    (l ++ [a]).get ⟨i, hi⟩ = if h : i < l.length then l.get ⟨i, h⟩ else a := by
  by_cases h : i < l.length
  · rw [dif_pos h]
    simp only [List.get_eq_getElem]
    exact List.getElem_append_left h
  · rw [dif_neg h]
    have hlen : i = l.length := by
      simp only [List.length_append, List.length_singleton] at hi
      omega
    subst hlen
    simp only [List.get_eq_getElem]
    rw [List.getElem_append_right (le_refl _)]
    simp

theorem genTemp_spec {st : Compiler} {e : Expr} (hInv : StInv st)
    (he : exprOk st.localCount e) : GenOk st e (genTemp st e) := by
  obtain ⟨hlen, htargets, hmemo⟩ := hInv
  refine ⟨⟨?_, ?_, ?_⟩, ⟨Nat.le_succ _, List.prefix_append _ _⟩, rfl, ?_, fun _ => rfl⟩
  · simp [genTemp, hlen]
  · intro i hi
    simp only [genTemp] at hi ⊢
    rw [get_append_singleton]
    by_cases hlt : i < st.propAssignments.length
    · rw [dif_pos hlt]
      exact htargets i hlt
    · rw [dif_neg hlt]
      simp only [List.length_append, List.length_singleton] at hi
      have hieq : i = st.propAssignments.length := by omega
      subst hieq
      refine ⟨rfl, by rw [hlen], ?_⟩
      rw [hlen]
      exact he
  · simp only [genTemp]
    intro p hp
    obtain ⟨h1, h2⟩ := hmemo p hp
    exact ⟨exprOk_mono h1 (Nat.le_succ _), h2⟩
  · intro s hs
    simp only [genTemp, localNames, List.mem_singleton] at hs
    exact ⟨st.localCount, by simp [genTemp], hs⟩

theorem exprOk_constant {n : Nat} {c : Constant} : exprOk n (Expr.Constant c) := by
  intro s hs
  simp [localNames] at hs

theorem exprOk_ref_member {n : Nat} {nm : String} :
    exprOk n (Expr.Ref nm RefScope.Member) := by
  intro s hs
  simp [localNames] at hs

theorem exprOk_unop {n : Nat} {e : Expr} {op : UnOp} (he : exprOk n e) :
    exprOk n (Expr.UnOp e op) := by
  intro s hs
  exact he s hs

theorem exprOk_infixBin {n : Nat} {l r : Expr} {op : InfixBinOp}
    (hl : exprOk n l) (hr : exprOk n r) : exprOk n (Expr.InfixBinOp l r op) := by
  intro s hs
  simp only [localNames, List.mem_append] at hs
  rcases hs with h | h
  · exact hl s h
  · exact hr s h

theorem exprOk_unary_call {n : Nat} {t a : Expr} {nm : String}
    (ht : exprOk n t) (ha : exprOk n a) : exprOk n (Expr.UnaryMemberCall t nm a) := by
  intro s hs
  simp only [localNames, List.mem_append] at hs
  rcases hs with h | h
  · exact ht s h
  · exact ha s h

theorem exprOk_binary_call {n : Nat} {l r : Expr} {nm : String}
    (hl : exprOk n l) (hr : exprOk n r) : exprOk n (Expr.BinaryFunctionCall nm l r) := by
  intro s hs
  simp only [localNames, List.mem_append] at hs
  rcases hs with h | h
  · exact hl s h
  · exact hr s h

theorem exprOk_cast {n : Nat} {e : Expr} {t : ValueType} (he : exprOk n e) :
    exprOk n (Expr.Cast e t) := by
  intro s hs
  exact he s hs

theorem exprOk_ternary {n : Nat} {c t f : Expr}
    (hc : exprOk n c) (ht : exprOk n t) (hf : exprOk n f) :
    exprOk n (Expr.Ternary c t f) := by
  intro s hs
  simp only [localNames, List.mem_append] at hs
  rcases hs with (h | h) | h
  · exact hc s h
  · exact ht s h
  · exact hf s h

theorem genMask_spec {st : Compiler} {e : Expr} {w : Nat} {t : ValueType}
    {e' : Expr} {st' : Compiler}
    (h : genMask st e w t = some (e', st'))
    (hInv : StInv st) (he : exprOk st.localCount e) : GenOk st e (e', st') := by
  rw [genMask] at h
  split at h
  · cases h
    exact ⟨hInv, Extends.refl st, rfl, he, fun hx => hx⟩
  · split at h <;> cases h <;>
      · obtain ⟨a, b, c, d, _⟩ := genTemp_spec hInv (exprOk_infixBin he exprOk_constant)
        exact ⟨a, b, c, d, fun _ => rfl⟩

theorem genShiftLeft_spec {st : Compiler} {e : Expr} {k : Nat}
    (hInv : StInv st) (he : exprOk st.localCount e) :
    GenOk st e (genShiftLeft st e k) := by
  rw [genShiftLeft]
  split
  · exact ⟨hInv, Extends.refl st, rfl, he, fun hx => hx⟩
  · obtain ⟨a, b, c, d, _⟩ := genTemp_spec hInv (exprOk_infixBin he exprOk_constant)
    exact ⟨a, b, c, d, fun _ => rfl⟩

theorem genShiftRight_spec {st : Compiler} {e : Expr} {k : Nat}
    (hInv : StInv st) (he : exprOk st.localCount e) :
    GenOk st e (genShiftRight st e k) := by
  rw [genShiftRight]
  split
  · exact ⟨hInv, Extends.refl st, rfl, he, fun hx => hx⟩
  · obtain ⟨a, b, c, d, _⟩ := genTemp_spec hInv (exprOk_infixBin he exprOk_constant)
    exact ⟨a, b, c, d, fun _ => rfl⟩

theorem genSignExtendShifts_spec {st : Compiler} {e : Expr} {w : Nat}
    {t : ValueType} (hInv : StInv st) (he : exprOk st.localCount e) :
    GenOk st e (genSignExtendShifts st e w t) := by
  obtain ⟨a1, b1, c1, d1, r1⟩ := genShiftLeft_spec (k := t.bitWidth - w) hInv he
  obtain ⟨a2, b2, c2, d2, r2⟩ := genShiftRight_spec (k := t.bitWidth - w) a1 d1
  exact ⟨a2, Extends_trans b1 b2, c2.trans c1, d2, fun hx => r2 (r1 hx)⟩

theorem genCast_spec {st : Compiler} {e : Expr} {s t : ValueType}
    {e' : Expr} {st' : Compiler}
    (h : genCast st e s t = some (e', st'))
    (hInv : StInv st) (he : exprOk st.localCount e) : GenOk st e (e', st') := by
  rw [genCast.eq_def] at h
  split at h
  · cases h
    exact ⟨hInv, Extends.refl st, rfl, he, fun hx => hx⟩
  · split at h
    · split at h
      · cases h
      · rename_i p hm
        obtain ⟨e1, stA⟩ := p
        obtain ⟨a1, b1, c1, d1, _⟩ := genMask_spec hm hInv he
        split at h
        · cases h
        · cases h
          obtain ⟨a2, b2, c2, d2, _⟩ :=
            genTemp_spec a1 (exprOk_infixBin d1 exprOk_constant)
          exact ⟨a2, Extends_trans b1 b2, c2.trans c1, d2, fun _ => rfl⟩
    · cases h
      obtain ⟨a, b, c, d, _⟩ := genTemp_spec hInv (exprOk_cast he)
      exact ⟨a, b, c, d, fun _ => rfl⟩

theorem genTemp_roc {st : Compiler} {e : Expr} :
    (genTemp st e).1.isRefOrConstant = true := rfl

theorem repeatFold_spec (src : Expr) (srcW : Nat) :
    ∀ (l : List Nat) (p : Expr × Compiler),
      StInv p.2 → exprOk p.2.localCount p.1 → exprOk p.2.localCount src →
      StInv (l.foldl (fun (p : Expr × Compiler) i =>
          let (expr, st) := p
          let (rhsE, st) := genShiftLeft st src (i * srcW)
          genTemp st (Expr.InfixBinOp expr rhsE InfixBinOp.BitOr)) p).2 ∧
      Extends p.2 (l.foldl (fun (p : Expr × Compiler) i =>
          let (expr, st) := p
          let (rhsE, st) := genShiftLeft st src (i * srcW)
          genTemp st (Expr.InfixBinOp expr rhsE InfixBinOp.BitOr)) p).2 ∧
      exprOk (l.foldl (fun (p : Expr × Compiler) i =>
          let (expr, st) := p
          let (rhsE, st) := genShiftLeft st src (i * srcW)
          genTemp st (Expr.InfixBinOp expr rhsE InfixBinOp.BitOr)) p).2.localCount
        (l.foldl (fun (p : Expr × Compiler) i =>
          let (expr, st) := p
          let (rhsE, st) := genShiftLeft st src (i * srcW)
          genTemp st (Expr.InfixBinOp expr rhsE InfixBinOp.BitOr)) p).1 ∧
      (p.1.isRefOrConstant = true → (l.foldl (fun (p : Expr × Compiler) i =>
          let (expr, st) := p
          let (rhsE, st) := genShiftLeft st src (i * srcW)
          genTemp st (Expr.InfixBinOp expr rhsE InfixBinOp.BitOr)) p).1.isRefOrConstant = true) := by
  intro l
  induction l with
  | nil =>
    intro p hInv hok hsrc
    exact ⟨hInv, Extends.refl _, hok, fun hx => hx⟩
  | cons i l ih =>
    intro p hInv hok hsrc
    obtain ⟨sInv, sExt, _, sOk, _⟩ := genShiftLeft_spec (k := i * srcW) hInv hsrc
    obtain ⟨tInv, tExt, _, tOk, _⟩ := genTemp_spec sInv
      (exprOk_infixBin (exprOk_mono hok sExt.1) sOk)
    simp only [List.foldl_cons]
    obtain ⟨a, b, d, r⟩ := ih _ tInv tOk
      (exprOk_mono hsrc (Nat.le_trans sExt.1 tExt.1))
    exact ⟨a, Extends_trans sExt (Extends_trans tExt b), d, fun _ => r genTemp_roc⟩

theorem compileSignalData_spec {g : graph.Graph}
    {recur : Nat → Ctx → Compiler → Option (Expr × Compiler)}
    (hrec : ∀ s c stx e st2, recur s c stx = some (e, st2) → StInv stx →
      CompOk stx (e, st2))
    {w sid : Nat} {sd : graph.SignalData} {ctx : Ctx} {st : Compiler}
    {expr : Expr} {st1 : Compiler}
    (h : compileSignalData g recur w sid sd ctx st = some (expr, st1))
    (hInv : StInv st) : CompOk st (expr, st1) := by
  cases sd with
  | Lit value bitWidth =>
    simp only [compileSignalData] at h
    split at h <;> cases h <;>
      exact ⟨hInv, Extends.refl st, exprOk_constant, rfl⟩
  | Input name bitWidth =>
    cases ctx with
    | cons inst parent =>
      simp only [compileSignalData, Option.bind_eq_bind', Option.bind_eq_some] at h
      obtain ⟨i, hi, d, hd, h⟩ := h
      exact hrec _ _ _ _ _ h hInv
    | nil =>
      simp only [compileSignalData] at h
      obtain ⟨a, b, c, d, r⟩ := genMask_spec h hInv exprOk_ref_member
      exact ⟨a, b, d, r rfl⟩
  | Reg data =>
    simp only [compileSignalData, Option.bind_eq_bind', Option.bind_eq_some] at h
    obtain ⟨cr, hcr, h⟩ := h
    cases h
    exact ⟨hInv, Extends.refl st, exprOk_ref_member, rfl⟩
  | UnOp source op =>
    simp only [compileSignalData, Option.bind_eq_bind', Option.bind_eq_some] at h
    obtain ⟨⟨e1, stA⟩, h1, bw, hbw, h⟩ := h
    obtain ⟨invA, extA, okA, rocA⟩ := hrec _ _ _ _ _ h1 hInv
    obtain ⟨tInv, tExt, _, tOk, _⟩ := genTemp_spec invA (exprOk_unop okA)
    obtain ⟨a, b, _, d, r⟩ := genMask_spec h tInv tOk
    exact ⟨a, Extends_trans extA (Extends_trans tExt b), d, r genTemp_roc⟩
  | SimpleBinOp lhs rhs op =>
    simp only [compileSignalData, Option.bind_eq_bind', Option.bind_eq_some] at h
    obtain ⟨⟨lE, stA⟩, hl, ⟨rE, stB⟩, hr, h⟩ := h
    cases h
    obtain ⟨invA, extA, okLA, _⟩ := hrec _ _ _ _ _ hl hInv
    obtain ⟨invB, extB, okRB, _⟩ := hrec _ _ _ _ _ hr invA
    obtain ⟨a, b, _, d, _⟩ := genTemp_spec invB
      (exprOk_infixBin (exprOk_mono okLA extB.1) okRB)
    exact ⟨a, Extends_trans extA (Extends_trans extB b), d, genTemp_roc⟩
  | AdditiveBinOp lhs rhs op =>
    simp only [compileSignalData, Option.bind_eq_bind', Option.bind_eq_some] at h
    obtain ⟨bw, hbw, ⟨lE, stA⟩, hl, ⟨rE, stB⟩, hr, ⟨lE2, stC⟩, hcl, ⟨rE2, stD⟩, hcr,
      tbw, htbw, ⟨e5, stE⟩, hc5, h⟩ := h
    obtain ⟨invA, extA, okLA, _⟩ := hrec _ _ _ _ _ hl hInv
    obtain ⟨invB, extB, okRB, _⟩ := hrec _ _ _ _ _ hr invA
    obtain ⟨invC, extC, _, okLC, _⟩ := genCast_spec hcl invB (exprOk_mono okLA extB.1)
    obtain ⟨invD, extD, _, okRD, _⟩ := genCast_spec hcr invC (exprOk_mono okRB extC.1)
    obtain ⟨tInv, tExt, _, tOk, _⟩ := genTemp_spec invD
      (exprOk_unary_call (exprOk_mono okLC extD.1) okRD)
    obtain ⟨inv5, ext5, _, ok5, roc5⟩ := genCast_spec hc5 tInv tOk
    obtain ⟨a, b, _, d, r⟩ := genMask_spec h inv5 ok5
    refine ⟨a, ?_, d, r (roc5 genTemp_roc)⟩
    exact Extends_trans extA (Extends_trans extB (Extends_trans extC
      (Extends_trans extD (Extends_trans tExt (Extends_trans ext5 b)))))
  | ComparisonBinOp lhs rhs op =>
    cases op <;>
      first
      | -- unsigned comparisons: no operand transformation
        (simp only [compileSignalData, Option.bind_eq_bind', Option.bind_eq_some] at h
         obtain ⟨bw, hbw, ⟨lE, stA⟩, hl, ⟨rE, stB⟩, hr, ⟨lE2, rE2, stC⟩, hts, h⟩ := h
         cases hts
         cases h
         obtain ⟨invA, extA, okLA, _⟩ := hrec _ _ _ _ _ hl hInv
         obtain ⟨invB, extB, okRB, _⟩ := hrec _ _ _ _ _ hr invA
         obtain ⟨a, b, _, d, _⟩ := genTemp_spec invB
           (exprOk_infixBin (exprOk_mono okLA extB.1) okRB)
         exact ⟨a, Extends_trans extA (Extends_trans extB b), d, genTemp_roc⟩)
      | -- signed comparisons: cast to signed and sign-extend both operands
        (simp only [compileSignalData, Option.bind_eq_bind', Option.bind_eq_some] at h
         obtain ⟨bw, hbw, ⟨lE, stA⟩, hl, ⟨rE, stB⟩, hr, ⟨lE4, rE4, stF⟩,
           ⟨tsv, htv, ⟨lE3, stD⟩, hcl, ⟨rE3, stE⟩, hcr, htsf⟩, h⟩ := h
         cases htsf
         cases h
         obtain ⟨invA, extA, okLA, _⟩ := hrec _ _ _ _ _ hl hInv
         obtain ⟨invB, extB, okRB, _⟩ := hrec _ _ _ _ _ hr invA
         obtain ⟨invD, extD, _, okLD, _⟩ := genCast_spec hcl invB
           (exprOk_mono okLA extB.1)
         obtain ⟨invE, extE, _, okRE, _⟩ := genCast_spec hcr invD
           (exprOk_mono okRB extD.1)
         obtain ⟨invF, extF, _, okLF, _⟩ := genSignExtendShifts_spec invE
           (exprOk_mono okLD extE.1)
         obtain ⟨invG, extG, _, okRG, _⟩ := genSignExtendShifts_spec invF
           (exprOk_mono okRE extF.1)
         obtain ⟨a, b, _, d, _⟩ := genTemp_spec invG
           (exprOk_infixBin (exprOk_mono okLF extG.1) okRG)
         refine ⟨a, ?_, d, genTemp_roc⟩
         exact Extends_trans extA (Extends_trans extB (Extends_trans extD
           (Extends_trans extE (Extends_trans extF (Extends_trans extG b))))))
  | ShiftBinOp lhs rhs op =>
    simp only [compileSignalData, Option.bind_eq_bind', Option.bind_eq_some] at h
    obtain ⟨lbw, hlbw, rbw, hrbw, ⟨lE, stA⟩, hl, ⟨rE, stB⟩, hr, ⟨lE2, stC⟩, hcl,
      ⟨rE2, stD⟩, hcr, mc, hmc, ⟨rE3, stE⟩, hc3, zc, hzc, tbw, htbw,
      ⟨e6, stF⟩, hc6, h⟩ := h
    obtain ⟨invA, extA, okLA, _⟩ := hrec _ _ _ _ _ hl hInv
    obtain ⟨invB, extB, okRB, _⟩ := hrec _ _ _ _ _ hr invA
    obtain ⟨invC, extC, _, okLC, _⟩ := genCast_spec hcl invB (exprOk_mono okLA extB.1)
    obtain ⟨invD, extD, _, okRD, _⟩ := genCast_spec hcr invC (exprOk_mono okRB extC.1)
    obtain ⟨invE, extE, _, okRE, _⟩ := genCast_spec hc3 invD
      (exprOk_binary_call okRD exprOk_constant)
    obtain ⟨tInv, tExt, _, tOk, _⟩ := genTemp_spec invE
      (exprOk_unary_call
        (exprOk_unary_call (exprOk_mono okLC (Nat.le_trans extD.1 extE.1)) okRE)
        exprOk_constant)
    obtain ⟨invF, extF, _, okF, rocF⟩ := genCast_spec hc6 tInv tOk
    obtain ⟨a, b, _, d, r⟩ := genMask_spec h invF okF
    refine ⟨a, ?_, d, r (rocF genTemp_roc)⟩
    · exact Extends_trans extA (Extends_trans extB (Extends_trans extC
        (Extends_trans extD (Extends_trans extE (Extends_trans tExt
          (Extends_trans extF b))))))
  | Bits source rangeHigh rangeLow =>
    simp only [compileSignalData, Option.bind_eq_bind', Option.bind_eq_some] at h
    obtain ⟨⟨e1, stA⟩, h1, tbw, htbw, sbw, hsbw, ⟨e2, stB⟩, hc2, h⟩ := h
    obtain ⟨invA, extA, okA, rocA⟩ := hrec _ _ _ _ _ h1 hInv
    obtain ⟨srInv, srExt, _, srOk, srRoc⟩ := genShiftRight_spec (k := rangeLow) invA okA
    obtain ⟨invB, extB, _, okB, rocB⟩ := genCast_spec hc2 srInv srOk
    obtain ⟨a, b, _, d, r⟩ := genMask_spec h invB okB
    exact ⟨a, Extends_trans extA (Extends_trans srExt (Extends_trans extB b)), d,
      r (rocB (srRoc rocA))⟩
  | Repeat source count =>
    simp only [compileSignalData, Option.bind_eq_bind', Option.bind_eq_some] at h
    obtain ⟨⟨e1, stA⟩, h1, sbw, hsbw, sigbw, hsigbw, ⟨e2, stB⟩, hc2, h⟩ := h
    obtain ⟨invA, extA, okA, rocA⟩ := hrec _ _ _ _ _ h1 hInv
    obtain ⟨invB, extB, _, okB, rocB⟩ := genCast_spec hc2 invA okA
    split at h
    · rw [Option.some.injEq, Prod.ext_iff] at h
      obtain ⟨h1, h2⟩ := h
      subst h1
      subst h2
      obtain ⟨a, b, d, r⟩ := repeatFold_spec e2 sbw (List.range' 1 (count - 1))
        (e2, stB) invB okB okB
      exact ⟨a, Extends_trans extA (Extends_trans extB b), d, r (rocB rocA)⟩
    · cases h
      exact ⟨invB, Extends_trans extA extB, okB, rocB rocA⟩
  | Concat lhs rhs =>
    simp only [compileSignalData, Option.bind_eq_bind', Option.bind_eq_some] at h
    obtain ⟨lbw, hlbw, rbw, hrbw, ⟨lE, stA⟩, hl, ⟨rE, stB⟩, hr, tbw, htbw,
      ⟨lE2, stC⟩, hcl, ⟨rE2, stD⟩, hcr, h⟩ := h
    cases h
    obtain ⟨invA, extA, okLA, _⟩ := hrec _ _ _ _ _ hl hInv
    obtain ⟨invB, extB, okRB, _⟩ := hrec _ _ _ _ _ hr invA
    obtain ⟨invC, extC, _, okLC, _⟩ := genCast_spec hcl invB (exprOk_mono okLA extB.1)
    obtain ⟨invD, extD, _, okRD, _⟩ := genCast_spec hcr invC (exprOk_mono okRB extC.1)
    obtain ⟨sInv, sExt, _, sOk, _⟩ := genShiftLeft_spec (k := rbw) invD
      (exprOk_mono okLC extD.1)
    obtain ⟨a, b, _, d, _⟩ := genTemp_spec sInv
      (exprOk_infixBin sOk (exprOk_mono okRD sExt.1))
    refine ⟨a, ?_, d, genTemp_roc⟩
    · exact Extends_trans extA (Extends_trans extB (Extends_trans extC
        (Extends_trans extD (Extends_trans sExt b))))
  | Mux cond whenTrue whenFalse =>
    simp only [compileSignalData, Option.bind_eq_bind', Option.bind_eq_some] at h
    obtain ⟨⟨cE, stA⟩, hc, ⟨tE, stB⟩, ht, ⟨fE, stC⟩, hf, h⟩ := h
    cases h
    obtain ⟨invA, extA, okCA, _⟩ := hrec _ _ _ _ _ hc hInv
    obtain ⟨invB, extB, okTB, _⟩ := hrec _ _ _ _ _ ht invA
    obtain ⟨invC, extC, okFC, _⟩ := hrec _ _ _ _ _ hf invB
    obtain ⟨a, b, _, d, _⟩ := genTemp_spec invC
      (exprOk_ternary (exprOk_mono okCA (Nat.le_trans extB.1 extC.1))
        (exprOk_mono okTB extC.1) okFC)
    exact ⟨a, Extends_trans extA (Extends_trans extB (Extends_trans extC b)), d,
      genTemp_roc⟩
  | InstanceOutput inst name =>
    simp only [compileSignalData, Option.bind_eq_bind', Option.bind_eq_some] at h
    obtain ⟨i, hi, m, hm, out, hout, h⟩ := h
    exact hrec _ _ _ _ _ h hInv

/-- The compiler invariant is established by every successful
`compile_signal` call from a well-formed state. -/
theorem compileSignal_spec {g : graph.Graph} :
    ∀ {f sid : Nat} {ctx : Ctx} {st : Compiler} {e : Expr} {st' : Compiler},
      compileSignal g f sid ctx st = some (e, st') → StInv st →
      CompOk st (e, st') := by
  intro f
  induction f with
  | zero =>
    intro sid ctx st e st' h hInv
    simp [compileSignal] at h
  | succ f ih =>
    intro sid ctx st e st' h hInv
    rw [compileSignal] at h
    split at h
    · rename_i e0 he
      cases h
      have hm := hInv.2.2 _ (mapLookup_mem he)
      exact ⟨hInv, Extends.refl st, hm.1, hm.2⟩
    · split at h
      · cases h
      · split at h
        · cases h
        · rename_i expr st1 hdata
          simp only [mapLookup, if_pos rfl] at h
          cases h
          have hc := compileSignalData_spec
            (fun s c stx e2 st2 hh hi => ih hh hi) hdata hInv
          obtain ⟨⟨hlen, htargets, hmemo⟩, hext, hok, hroc⟩ := hc
          refine ⟨⟨hlen, htargets, ?_⟩, hext, hok, hroc⟩
          intro p hp
          rcases List.mem_cons.mp hp with rfl | hp
          · exact ⟨hok, hroc⟩
          · exact hmemo p hp

theorem temp_name_injective {i j : Nat}
    (h : "__temp_" ++ Nat.repr i = "__temp_" ++ Nat.repr j) : i = j := by
  apply name_index_injective "__temp" "__temp"
  have e1 : ("__temp" ++ "_" : String) = "__temp_" := rfl
  rw [e1]
  exact h

/-- C6: every successful `compile_signal` call from a well-formed state
only appends to the assignment list; afterwards the list is in dependency
order (every `Local` name used by an assignment is the target of an
earlier assignment), the `i`-th assignment targets exactly `__temp_<i>`
(so the counter is a single monotone allocator for the whole compilation)
and no temporary is assigned twice. -/
theorem assignments_dependency_ordered {g : graph.Graph} {f sid : Nat}
    {ctx : Ctx} {st : Compiler} {e : Expr} {st' : Compiler}
    (h : compileSignal g f sid ctx st = some (e, st')) (hInv : StInv st) :
    st.propAssignments <+: st'.propAssignments ∧
    st.localCount ≤ st'.localCount ∧
    st'.propAssignments.length = st'.localCount ∧
    (∀ i (hi : i < st'.propAssignments.length),
      (st'.propAssignments.get ⟨i, hi⟩).targetScope = TargetScope.Local ∧
      (st'.propAssignments.get ⟨i, hi⟩).targetName = "__temp_" ++ Nat.repr i ∧
      ∀ s ∈ localNames (st'.propAssignments.get ⟨i, hi⟩).expr,
        ∃ j, ∃ hj : j < st'.propAssignments.length, j < i ∧
          (st'.propAssignments.get ⟨j, hj⟩).targetName = s) ∧
    ∀ i j (hi : i < st'.propAssignments.length)
      (hj : j < st'.propAssignments.length), i ≠ j →
      (st'.propAssignments.get ⟨i, hi⟩).targetName ≠
        (st'.propAssignments.get ⟨j, hj⟩).targetName := by
  obtain ⟨⟨hlen, htargets, _⟩, ⟨hcnt, hpre⟩, _, _⟩ := compileSignal_spec h hInv
  refine ⟨hpre, hcnt, hlen, ?_, ?_⟩
  · intro i hi
    obtain ⟨hscope, hname, hexpr⟩ := htargets i hi
    refine ⟨hscope, hname, ?_⟩
    intro s hs
    obtain ⟨j, hj, rfl⟩ := hexpr s hs
    have hjlen : j < st'.propAssignments.length := lt_trans hj hi
    obtain ⟨_, hnamej, _⟩ := htargets j hjlen
    exact ⟨j, hjlen, hj, hnamej⟩
  · intro i j hi hj hij
    obtain ⟨_, hni, _⟩ := htargets i hi
    obtain ⟨_, hnj, _⟩ := htargets j hj
    rw [hni, hnj]
    intro hcontra
    exact hij (temp_name_injective hcontra)

/-! ## Concrete compilations used as witnesses and counterexamples -/

/-- A root module with a single 2-bit input, compiled as a root output. -/
def inputMaskGraph : graph.Graph :=
  { signals := [.Input "a" 2], regDatas := [], instances := [], modules := [] }

/-- The result expression of compiling `inputMaskGraph`'s signal 0. -/
def inputMaskExpr : Expr := Expr.Ref "__temp_0" RefScope.Local

/-- The compiler state after compiling `inputMaskGraph`'s signal 0. -/
def inputMaskState : Compiler :=
  { regs := [],
    signalExprs := [(([], 0), Expr.Ref "__temp_0" RefScope.Local)],
    propAssignments :=
      [{ targetScope := TargetScope.Local,
         targetName := "__temp_0",
         expr := Expr.InfixBinOp (Expr.Ref "a" RefScope.Member)
           (Expr.Constant (Constant.U32 3)) InfixBinOp.BitAnd }],
    localCount := 1 }

theorem compileSignal_memoized_witness :
    compileSignal inputMaskGraph (0 + 1) 0 [] inputMaskState =
      some (inputMaskExpr, inputMaskState) :=
  compileSignal_memoized
    (show compileSignal inputMaskGraph 1 0 [] Compiler.new =
      some (inputMaskExpr, inputMaskState) by decide) 0

theorem assignments_dependency_ordered_witness :
    Compiler.new.propAssignments <+: inputMaskState.propAssignments ∧
    Compiler.new.localCount ≤ inputMaskState.localCount ∧
    inputMaskState.propAssignments.length = inputMaskState.localCount ∧
    (∀ i (hi : i < inputMaskState.propAssignments.length),
      (inputMaskState.propAssignments.get ⟨i, hi⟩).targetScope =
        TargetScope.Local ∧
      (inputMaskState.propAssignments.get ⟨i, hi⟩).targetName =
        "__temp_" ++ Nat.repr i ∧
      ∀ s ∈ localNames (inputMaskState.propAssignments.get ⟨i, hi⟩).expr,
        ∃ j, ∃ hj : j < inputMaskState.propAssignments.length, j < i ∧
          (inputMaskState.propAssignments.get ⟨j, hj⟩).targetName = s) ∧
    ∀ i j (hi : i < inputMaskState.propAssignments.length)
      (hj : j < inputMaskState.propAssignments.length), i ≠ j →
      (inputMaskState.propAssignments.get ⟨i, hi⟩).targetName ≠
        (inputMaskState.propAssignments.get ⟨j, hj⟩).targetName :=
  assignments_dependency_ordered
    (show compileSignal inputMaskGraph 1 0 [] Compiler.new =
      some (inputMaskExpr, inputMaskState) by decide) StInv_new

/-- A single 4-bit literal with value 5. -/
def litGraph : graph.Graph :=
  { signals := [.Lit (.U32 5) 4], regDatas := [], instances := [], modules := [] }

/-- The compiler state after compiling `litGraph`'s signal 0. -/
def litState : Compiler :=
  { regs := [],
    signalExprs := [(([], 0), Expr.Constant (Constant.U32 5))],
    propAssignments := [],
    localCount := 0 }

/-- C5 counterexample: compiling a `Lit` returns `Expr::Constant`, not a
reference to a port, register storage, or temporary. -/
theorem compileSignal_lit_returns_constant :
    (compileSignal litGraph 1 0 [] Compiler.new).map (fun p => p.1.isRef) =
      some false ∧
    (compileSignal litGraph 1 0 [] Compiler.new).map (fun p => p.1) =
      some (Expr.Constant (Constant.U32 5)) :=
  ⟨rfl, rfl⟩

/-- C5 (amended): from a well-formed state, the `Expr` returned by
`compile_signal` is always either a plain reference (to a module port, a
register's current-value storage, or a locally-bound temporary) or a
constant — literals (and width-preserving `Bits`/`Repeat` of them)
compile to constants — never any other compound expression. -/
theorem compileSignal_result_ref_or_constant {g : graph.Graph} {f sid : Nat}
    {ctx : Ctx} {st : Compiler} {e : Expr} {st' : Compiler}
    (h : compileSignal g f sid ctx st = some (e, st')) (hInv : StInv st) :
    e.isRefOrConstant = true :=
  (compileSignal_spec h hInv).2.2.2

theorem compileSignal_result_ref_or_constant_witness :
    (Expr.Constant (Constant.U32 5)).isRefOrConstant = true :=
  compileSignal_result_ref_or_constant
    (show compileSignal litGraph 1 0 [] Compiler.new =
      some (Expr.Constant (Constant.U32 5), litState) by decide) StInv_new

/-! ## The right-operand cast in the shift lowering (claim C1) -/

/-- Does the compiled shift call have the claimed shape: the clamped right
operand cast (by an explicit `Cast` node) to `U32` before being the
argument of the checked shift? -/
def shiftArgIsCastToU32 (e : Expr) : Bool :=
  match e with
  | .UnaryMemberCall (.UnaryMemberCall _ nm arg) "unwrap_or" _ =>
    (nm == "checked_shl" || nm == "checked_shr") &&
    (match arg with
      | .Cast _ ValueType.U32 => true
      | _ => false)
  | _ => false

/-- A 32-bit value shifted left by a 64-bit amount: the left operand's
native type is `U32`, the right operand's is `U64`. -/
def shiftWideGraph : graph.Graph :=
  { signals := [.Input "a" 32, .Input "b" 64, .ShiftBinOp 0 1 .Shl],
    regDatas := [], instances := [], modules := [] }

/-- C1 evidence: `gen_cast` for the clamped right operand is invoked with
the LEFT operand's op-input type as declared source type
(`compiler.rs:320`), so here (`U32` = target) it is the identity and no
cast is emitted: the `checked_shl` argument is the raw `U64`-typed
`std::cmp::min` call, which does not even typecheck in the generated Rust
(`checked_shl` takes `u32`).  The `min` clamp itself is typed at the right
operand's native type (`U64`), as the claim states. -/
theorem shift_rhs_cast_skipped_on_wide_rhs :
    (compileSignal shiftWideGraph 10 2 [] Compiler.new).map
        (fun p => p.2.propAssignments) =
      some [{ targetScope := TargetScope.Local, targetName := "__temp_0",
              expr := Expr.UnaryMemberCall
                (Expr.UnaryMemberCall (Expr.Ref "a" RefScope.Member)
                  "checked_shl"
                  (Expr.BinaryFunctionCall "std::cmp::min"
                    (Expr.Ref "b" RefScope.Member)
                    (Expr.Constant (Constant.U64 4294967295))))
                "unwrap_or" (Expr.Constant (Constant.U32 0)) }] ∧
    (compileSignal shiftWideGraph 10 2 [] Compiler.new).map
        (fun p => p.2.propAssignments.map
          (fun a => shiftArgIsCastToU32 a.expr)) =
      some [false] :=
  ⟨rfl, rfl⟩


end sim

/-! ## Register discovery (claims C3, C9, C10) -/

theorem mapLookup_append {α β : Type} [DecidableEq α] (k : α) :
    ∀ (l1 l2 : List (α × β)), mapLookup k (l1 ++ l2) =
      match mapLookup k l1 with
      | some v => some v
      | none => mapLookup k l2 := by
  intro l1 l2
  induction l1 with
  | nil => simp [mapLookup]
  | cons p t ih =>
    obtain ⟨x, y⟩ := p
    rw [List.cons_append, mapLookup, mapLookup]
    split
    · rfl
    · exact ih

theorem mapLookup_append_self {α β : Type} [DecidableEq α] {k : α}
    {l : List (α × β)} (h : mapLookup k l = none) (v : β) :
    mapLookup k (l ++ [(k, v)]) = some v := by
  rw [mapLookup_append, h]
  simp [mapLookup]

theorem mapLookup_eq_none_iff {α β : Type} [DecidableEq α] {k : α} :
    ∀ {l : List (α × β)}, mapLookup k l = none ↔ k ∉ l.map Prod.fst := by
  intro l
  induction l with
  | nil => simp [mapLookup]
  | cons p t ih =>
    obtain ⟨x, y⟩ := p
    rw [mapLookup]
    split
    · rename_i hx
      subst hx
      simp
    · rename_i hx
      simp only [List.map_cons, List.mem_cons]
      rw [ih]
      constructor
      · intro h hc
        rcases hc with hc | hc
        · exact hx hc.symm
        · exact h hc
      · intro h hc
        exact h (Or.inr hc)

namespace sim

/-- Is the signal a `Reg` node? -/
def isRegNode (g : graph.Graph) (sid : Nat) : Prop :=
  ∃ d, g.signals[sid]? = some (.Reg d)

/-- The `(context, signal)` pairs `gather_regs` recurses into from a node:
the discovery graph's edges. -/
def gatherChildren (g : graph.Graph) (ctx : Ctx) (sid : Nat) :
    List (Ctx × Nat) :=
  match g.signals[sid]? with
  | none => []
  | some sd =>
    match sd with
    | .Lit _ _ => []
    | .Input name _ =>
      match ctx with
      | inst :: parent =>
        match g.instances[inst]? with
        | none => []
        | some i =>
          match mapLookup name i.drivenInputs with
          | none => []
          | some d => [(parent, d)]
      | [] => []
    | .Reg data =>
      match g.regDatas[data]? with
      | none => []
      | some rd =>
        match rd.next with
        | none => []
        | some nxt => [(ctx, nxt)]
    | .UnOp source _ => [(ctx, source)]
    | .SimpleBinOp lhs rhs _ => [(ctx, lhs), (ctx, rhs)]
    | .AdditiveBinOp lhs rhs _ => [(ctx, lhs), (ctx, rhs)]
    | .ComparisonBinOp lhs rhs _ => [(ctx, lhs), (ctx, rhs)]
    | .ShiftBinOp lhs rhs _ => [(ctx, lhs), (ctx, rhs)]
    | .Bits source _ _ => [(ctx, source)]
    | .Repeat source _ => [(ctx, source)]
    | .Concat lhs rhs => [(ctx, lhs), (ctx, rhs)]
    | .Mux cond whenTrue whenFalse => [(ctx, cond), (ctx, whenTrue), (ctx, whenFalse)]
    | .InstanceOutput inst name =>
      match g.instances[inst]? with
      | none => []
      | some i =>
        match g.modules[i.instantiatedModule]? with
        | none => []
        | some m =>
          match mapLookup name m.outputs with
          | none => []
          | some out => [(inst :: ctx, out)]

/-- Reachability along the discovery edges. -/
def Reach (g : graph.Graph) : (Ctx × Nat) → (Ctx × Nat) → Prop :=
  Relation.ReflTransGen (fun p q => q ∈ gatherChildren g p.1 p.2)

/-- Combinational reachability: following discovery edges through
non-register nodes only, ending at a register. -/
inductive CReach (g : graph.Graph) : (Ctx × Nat) → (Ctx × Nat) → Prop
  | found {p} : isRegNode g p.2 → CReach g p p
  | step {p q r} : ¬isRegNode g p.2 → q ∈ gatherChildren g p.1 p.2 →
      CReach g q r → CReach g p r

/-- The key is present in the discovered-registers table. -/
def regPresent (st : Compiler) (k : Ctx × Nat) : Prop :=
  ∃ cr, mapLookup k st.regs = some cr

/-- The registers table only ever grows. -/
def regsMono (st st' : Compiler) : Prop :=
  ∀ k v, mapLookup k st.regs = some v → mapLookup k st'.regs = some v

theorem regsMono_rfl (st : Compiler) : regsMono st st := fun _ _ h => h

theorem regsMono_trans {s1 s2 s3 : Compiler} (h1 : regsMono s1 s2)
    (h2 : regsMono s2 s3) : regsMono s1 s3 := fun k v h => h2 k v (h1 k v h)

/-- The `i`-th entry of the registers table is named `__reg_<name>_<i>`
with `<name>_next` as its companion. -/
def RegsNamesInv (st : Compiler) : Prop :=
  ∀ i (hi : i < st.regs.length), ∃ nm,
    (st.regs.get ⟨i, hi⟩).2.valueName = "__reg_" ++ nm ++ "_" ++ Nat.repr i ∧
    (st.regs.get ⟨i, hi⟩).2.nextName =
      (st.regs.get ⟨i, hi⟩).2.valueName ++ "_next"

/-- No `(context, signal)` key appears twice in the registers table. -/
def RegsKeysNodup (st : Compiler) : Prop :=
  (st.regs.map Prod.fst).Nodup

/-- One `gather_regs` `Reg`-insertion preserves the naming and key
invariants and the table contents. -/
theorem regsInsert_pres {st : Compiler} {key : Ctx × Nat}
    {data : Nat} {rd : graph.RegisterData}
    (habs : mapLookup key st.regs = none) :
    regsMono st { st with regs := st.regs ++
        [(key, { data := data,
                 valueName := "__reg_" ++ rd.name ++ "_" ++ Nat.repr st.regs.length,
                 nextName := ("__reg_" ++ rd.name ++ "_" ++ Nat.repr st.regs.length)
                   ++ "_next" })] } ∧
    (RegsNamesInv st → RegsNamesInv { st with regs := st.regs ++
        [(key, { data := data,
                 valueName := "__reg_" ++ rd.name ++ "_" ++ Nat.repr st.regs.length,
                 nextName := ("__reg_" ++ rd.name ++ "_" ++ Nat.repr st.regs.length)
                   ++ "_next" })] }) ∧
    (RegsKeysNodup st → RegsKeysNodup { st with regs := st.regs ++
        [(key, { data := data,
                 valueName := "__reg_" ++ rd.name ++ "_" ++ Nat.repr st.regs.length,
                 nextName := ("__reg_" ++ rd.name ++ "_" ++ Nat.repr st.regs.length)
                   ++ "_next" })] }) := by
  refine ⟨?_, ?_, ?_⟩
  · intro k v h
    rw [mapLookup_append]
    simp only [h]
  · intro hinv i hi
    simp only at hi ⊢
    rw [get_append_singleton]
    by_cases hlt : i < st.regs.length
    · rw [dif_pos hlt]
      exact hinv i hlt
    · rw [dif_neg hlt]
      simp only [List.length_append, List.length_singleton] at hi
      have : i = st.regs.length := by omega
      subst this
      exact ⟨rd.name, rfl, rfl⟩
  · intro hinv
    unfold RegsKeysNodup
    simp only [List.map_append, List.map_cons, List.map_nil]
    rw [List.nodup_append]
    refine ⟨hinv, List.nodup_singleton _, ?_⟩
    intro a ha hb
    simp only [List.mem_singleton] at hb
    subst hb
    exact (mapLookup_eq_none_iff.mp habs) ha

/-- Preservation contract of one `gather_regs` call. -/
def GPres (st st' : Compiler) : Prop :=
  regsMono st st' ∧ (RegsNamesInv st → RegsNamesInv st') ∧
  (RegsKeysNodup st → RegsKeysNodup st')

theorem GPres_rfl (st : Compiler) : GPres st st :=
  ⟨regsMono_rfl st, fun h => h, fun h => h⟩

theorem GPres_trans {s1 s2 s3 : Compiler} (h1 : GPres s1 s2)
    (h2 : GPres s2 s3) : GPres s1 s3 :=
  ⟨regsMono_trans h1.1 h2.1, fun h => h2.2.1 (h1.2.1 h),
   fun h => h2.2.2 (h1.2.2 h)⟩

theorem gatherRegs_eq_noSignal {g : graph.Graph} {f sid : Nat}
    {ctx : Ctx} {st : Compiler} (hsd : g.signals[sid]? = none) :
    gatherRegs g (f + 1) sid ctx st = none := by
  rw [gatherRegs, hsd]
  rfl

theorem gatherRegs_eq_lit {g : graph.Graph} {f sid : Nat}
    {v : graph.Constant} {bw : Nat} {ctx : Ctx} {st : Compiler}
    (hsd : g.signals[sid]? = some (.Lit v bw)) :
    gatherRegs g (f + 1) sid ctx st = some st := by
  rw [gatherRegs, hsd]
  rfl

theorem gatherRegs_eq_input_root {g : graph.Graph} {f sid : Nat}
    {name : String} {bw : Nat} {st : Compiler}
    (hsd : g.signals[sid]? = some (.Input name bw)) :
    gatherRegs g (f + 1) sid [] st = some st := by
  rw [gatherRegs, hsd]
  rfl

theorem gatherRegs_eq_input_nonroot {g : graph.Graph} {f sid : Nat}
    {name : String} {bw : Nat} {inst : Nat} {parent : Ctx} {st : Compiler}
    (hsd : g.signals[sid]? = some (.Input name bw)) :
    gatherRegs g (f + 1) sid (inst :: parent) st =
      (g.instances[inst]?).bind fun i =>
        (mapLookup name i.drivenInputs).bind fun d =>
          gatherRegs g f d parent st := by
  rw [gatherRegs, hsd]
  rfl

theorem gatherRegs_eq_reg {g : graph.Graph} {f sid : Nat} {data : Nat}
    {ctx : Ctx} {st : Compiler}
    (hsd : g.signals[sid]? = some (.Reg data)) :
    gatherRegs g (f + 1) sid ctx st =
      match mapLookup (ctx, sid) st.regs with
      | some _ => some st
      | none =>
        (g.regDatas[data]?).bind fun rd =>
          (rd.next).bind fun nxt =>
            gatherRegs g f nxt ctx
              { st with regs := st.regs ++
                [((ctx, sid),
                  { data := data,
                    valueName := "__reg_" ++ rd.name ++ "_" ++ Nat.repr st.regs.length,
                    nextName := ("__reg_" ++ rd.name ++ "_" ++
                      Nat.repr st.regs.length) ++ "_next" })] } := by
  rw [gatherRegs, hsd]
  rfl

theorem gatherRegs_eq_unop {g : graph.Graph} {f sid : Nat}
    {source : Nat} {op : graph.UnOp} {ctx : Ctx} {st : Compiler}
    (hsd : g.signals[sid]? = some (.UnOp source op)) :
    gatherRegs g (f + 1) sid ctx st = gatherRegs g f source ctx st := by
  rw [gatherRegs, hsd]
  rfl

theorem gatherRegs_eq_simpleBinOp {g : graph.Graph} {f sid : Nat}
    {lhs rhs : Nat} {op : graph.SimpleBinOp} {ctx : Ctx} {st : Compiler}
    (hsd : g.signals[sid]? = some (.SimpleBinOp lhs rhs op)) :
    gatherRegs g (f + 1) sid ctx st =
      (gatherRegs g f lhs ctx st).bind fun st1 =>
        gatherRegs g f rhs ctx st1 := by
  rw [gatherRegs, hsd]
  rfl

theorem gatherRegs_eq_additiveBinOp {g : graph.Graph} {f sid : Nat}
    {lhs rhs : Nat} {op : graph.AdditiveBinOp} {ctx : Ctx} {st : Compiler}
    (hsd : g.signals[sid]? = some (.AdditiveBinOp lhs rhs op)) :
    gatherRegs g (f + 1) sid ctx st =
      (gatherRegs g f lhs ctx st).bind fun st1 =>
        gatherRegs g f rhs ctx st1 := by
  rw [gatherRegs, hsd]
  rfl

theorem gatherRegs_eq_comparisonBinOp {g : graph.Graph} {f sid : Nat}
    {lhs rhs : Nat} {op : graph.ComparisonBinOp} {ctx : Ctx} {st : Compiler}
    (hsd : g.signals[sid]? = some (.ComparisonBinOp lhs rhs op)) :
    gatherRegs g (f + 1) sid ctx st =
      (gatherRegs g f lhs ctx st).bind fun st1 =>
        gatherRegs g f rhs ctx st1 := by
  rw [gatherRegs, hsd]
  rfl

theorem gatherRegs_eq_shiftBinOp {g : graph.Graph} {f sid : Nat}
    {lhs rhs : Nat} {op : graph.ShiftBinOp} {ctx : Ctx} {st : Compiler}
    (hsd : g.signals[sid]? = some (.ShiftBinOp lhs rhs op)) :
    gatherRegs g (f + 1) sid ctx st =
      (gatherRegs g f lhs ctx st).bind fun st1 =>
        gatherRegs g f rhs ctx st1 := by
  rw [gatherRegs, hsd]
  rfl

theorem gatherRegs_eq_bits {g : graph.Graph} {f sid : Nat}
    {source rangeHigh rangeLow : Nat} {ctx : Ctx} {st : Compiler}
    (hsd : g.signals[sid]? = some (.Bits source rangeHigh rangeLow)) :
    gatherRegs g (f + 1) sid ctx st = gatherRegs g f source ctx st := by
  rw [gatherRegs, hsd]
  rfl

theorem gatherRegs_eq_repeat {g : graph.Graph} {f sid : Nat}
    {source count : Nat} {ctx : Ctx} {st : Compiler}
    (hsd : g.signals[sid]? = some (.Repeat source count)) :
    gatherRegs g (f + 1) sid ctx st = gatherRegs g f source ctx st := by
  rw [gatherRegs, hsd]
  rfl

theorem gatherRegs_eq_concat {g : graph.Graph} {f sid : Nat}
    {lhs rhs : Nat} {ctx : Ctx} {st : Compiler}
    (hsd : g.signals[sid]? = some (.Concat lhs rhs)) :
    gatherRegs g (f + 1) sid ctx st =
      (gatherRegs g f lhs ctx st).bind fun st1 =>
        gatherRegs g f rhs ctx st1 := by
  rw [gatherRegs, hsd]
  rfl

theorem gatherRegs_eq_mux {g : graph.Graph} {f sid : Nat}
    {cond whenTrue whenFalse : Nat} {ctx : Ctx} {st : Compiler}
    (hsd : g.signals[sid]? = some (.Mux cond whenTrue whenFalse)) :
    gatherRegs g (f + 1) sid ctx st =
      (gatherRegs g f cond ctx st).bind fun st1 =>
        (gatherRegs g f whenTrue ctx st1).bind fun st2 =>
          gatherRegs g f whenFalse ctx st2 := by
  rw [gatherRegs, hsd]
  rfl

theorem gatherRegs_eq_instanceOutput {g : graph.Graph} {f sid : Nat}
    {inst : Nat} {name : String} {ctx : Ctx} {st : Compiler}
    (hsd : g.signals[sid]? = some (.InstanceOutput inst name)) :
    gatherRegs g (f + 1) sid ctx st =
      (g.instances[inst]?).bind fun i =>
        (g.modules[i.instantiatedModule]?).bind fun m =>
          (mapLookup name m.outputs).bind fun out =>
            gatherRegs g f out (inst :: ctx) st := by
  rw [gatherRegs, hsd]
  rfl

/-- Every successful `gather_regs` call only appends to the registers
table and preserves the naming and key-uniqueness invariants. -/
theorem gatherRegs_pres {g : graph.Graph} :
    ∀ {f sid : Nat} {ctx : Ctx} {st st' : Compiler},
      gatherRegs g f sid ctx st = some st' → GPres st st' := by
  intro f
  induction f with
  | zero =>
    intro sid ctx st st' h
    simp [gatherRegs] at h
  | succ f ih =>
    intro sid ctx st st' h
    rcases hsd : g.signals[sid]? with _ | sd
    · rw [gatherRegs_eq_noSignal hsd] at h
      cases h
    cases sd with
    | Lit value bitWidth =>
      rw [gatherRegs_eq_lit hsd] at h
      cases h
      exact GPres_rfl _
    | Input name bitWidth =>
      cases ctx with
      | cons inst parent =>
        rw [gatherRegs_eq_input_nonroot hsd] at h
        simp only [Option.bind_eq_some] at h
        obtain ⟨i, hi, d, hd, h⟩ := h
        exact ih h
      | nil =>
        rw [gatherRegs_eq_input_root hsd] at h
        cases h
        exact GPres_rfl _
    | Reg data =>
      rw [gatherRegs_eq_reg hsd] at h
      split at h
      · cases h
        exact GPres_rfl _
      · rename_i habs
        simp only [Option.bind_eq_some] at h
        obtain ⟨rd, hrd, nxt, hnxt, h⟩ := h
        exact GPres_trans (regsInsert_pres habs) (ih h)
    | UnOp source op =>
      rw [gatherRegs_eq_unop hsd] at h
      exact ih h
    | SimpleBinOp lhs rhs op =>
      rw [gatherRegs_eq_simpleBinOp hsd] at h
      simp only [Option.bind_eq_some] at h
      obtain ⟨st1, h1, h⟩ := h
      exact GPres_trans (ih h1) (ih h)
    | AdditiveBinOp lhs rhs op =>
      rw [gatherRegs_eq_additiveBinOp hsd] at h
      simp only [Option.bind_eq_some] at h
      obtain ⟨st1, h1, h⟩ := h
      exact GPres_trans (ih h1) (ih h)
    | ComparisonBinOp lhs rhs op =>
      rw [gatherRegs_eq_comparisonBinOp hsd] at h
      simp only [Option.bind_eq_some] at h
      obtain ⟨st1, h1, h⟩ := h
      exact GPres_trans (ih h1) (ih h)
    | ShiftBinOp lhs rhs op =>
      rw [gatherRegs_eq_shiftBinOp hsd] at h
      simp only [Option.bind_eq_some] at h
      obtain ⟨st1, h1, h⟩ := h
      exact GPres_trans (ih h1) (ih h)
    | Bits source rangeHigh rangeLow =>
      rw [gatherRegs_eq_bits hsd] at h
      exact ih h
    | Repeat source count =>
      rw [gatherRegs_eq_repeat hsd] at h
      exact ih h
    | Concat lhs rhs =>
      rw [gatherRegs_eq_concat hsd] at h
      simp only [Option.bind_eq_some] at h
      obtain ⟨st1, h1, h⟩ := h
      exact GPres_trans (ih h1) (ih h)
    | Mux cond whenTrue whenFalse =>
      rw [gatherRegs_eq_mux hsd] at h
      simp only [Option.bind_eq_some] at h
      obtain ⟨st1, h1, st2, h2, h⟩ := h
      exact GPres_trans (ih h1) (GPres_trans (ih h2) (ih h))
    | InstanceOutput inst name =>
      rw [gatherRegs_eq_instanceOutput hsd] at h
      simp only [Option.bind_eq_some] at h
      obtain ⟨i, hi, m, hm, out, hout, h⟩ := h
      exact ih h

theorem regPresent_mono {st st' : Compiler} {k : Ctx × Nat}
    (hm : regsMono st st') (h : regPresent st k) : regPresent st' k := by
  obtain ⟨cr, h⟩ := h
  exact ⟨cr, hm k cr h⟩

/-- "Locally closed except grey": every discovered register whose key is
not in `grey` has all registers combinationally reachable from its
children already discovered. -/
def LCE (g : graph.Graph) (st : Compiler) (grey : List (Ctx × Nat)) : Prop :=
  ∀ k cr, mapLookup k st.regs = some cr → k ∈ grey ∨
    ∀ q ∈ gatherChildren g k.1 k.2, ∀ r, CReach g q r → regPresent st r

theorem LCE_mono_pres {g : graph.Graph} {st st' : Compiler}
    {grey : List (Ctx × Nat)} (hm : regsMono st st')
    (h : ∀ k cr, mapLookup k st'.regs = some cr →
      (∃ cr0, mapLookup k st.regs = some cr0) ∨ k ∈ grey)
    (hlce : LCE g st grey) : LCE g st' grey := by
  intro k cr hk
  rcases h k cr hk with ⟨cr0, hk0⟩ | hg
  · rcases hlce k cr0 hk0 with hg | hcl
    · exact Or.inl hg
    · exact Or.inr fun q hq r hr => regPresent_mono hm (hcl q hq r hr)
  · exact Or.inl hg

/-- The central discovery lemma: a successful `gather_regs` call preserves
local closure (with the grey set of in-progress registers), keeps grey
keys present, and discovers every register combinationally reachable from
the visited node. -/
theorem gatherRegs_closure {g : graph.Graph} :
    ∀ {f sid : Nat} {ctx : Ctx} {st st' : Compiler} {grey : List (Ctx × Nat)},
      gatherRegs g f sid ctx st = some st' →
      LCE g st grey → (∀ k ∈ grey, regPresent st k) →
      LCE g st' grey ∧ (∀ k ∈ grey, regPresent st' k) ∧
      (∀ r, CReach g (ctx, sid) r → regPresent st' r) := by
  intro f
  induction f with
  | zero =>
    intro sid ctx st st' grey h hlce hgrey
    simp [gatherRegs] at h
  | succ f ih =>
    intro sid ctx st st' grey h hlce hgrey
    rcases hsd : g.signals[sid]? with _ | sd
    · rw [gatherRegs_eq_noSignal hsd] at h
      cases h
    cases sd with
    | Lit value bitWidth =>
      rw [gatherRegs_eq_lit hsd] at h
      cases h
      refine ⟨hlce, hgrey, ?_⟩
      intro r hr
      cases hr with
      | found hreg => simp [isRegNode, hsd] at hreg
      | step hnreg hq hcr => simp [gatherChildren, hsd] at hq
    | Input name bitWidth =>
      cases ctx with
      | cons inst parent =>
        rw [gatherRegs_eq_input_nonroot hsd] at h
        simp only [Option.bind_eq_some] at h
        obtain ⟨i, hi, d, hd, h⟩ := h
        obtain ⟨hlce', hgrey', hconc⟩ := ih h hlce hgrey
        refine ⟨hlce', hgrey', ?_⟩
        intro r hr
        cases hr with
        | found hreg => simp [isRegNode, hsd] at hreg
        | step hnreg hq hcr =>
          simp only [gatherChildren, hsd, hi, hd, List.mem_singleton] at hq
          subst hq
          exact hconc r hcr
      | nil =>
        rw [gatherRegs_eq_input_root hsd] at h
        cases h
        refine ⟨hlce, hgrey, ?_⟩
        intro r hr
        cases hr with
        | found hreg => simp [isRegNode, hsd] at hreg
        | step hnreg hq hcr => simp [gatherChildren, hsd] at hq
    | Reg data =>
      rw [gatherRegs_eq_reg hsd] at h
      split at h
      · rename_i cr hcr0
        cases h
        refine ⟨hlce, hgrey, ?_⟩
        intro r hr
        cases hr with
        | found hreg => exact ⟨cr, hcr0⟩
        | step hnreg hq hcr => exact absurd ⟨data, hsd⟩ hnreg
      · rename_i habs
        simp only [Option.bind_eq_some] at h
        obtain ⟨rd, hrd, nxt, hnxt, h⟩ := h
        have hpres := @regsInsert_pres st (ctx, sid) data rd habs
        have hlceIns :
            LCE g { st with regs := st.regs ++
              [((ctx, sid),
                { data := data,
                  valueName := "__reg_" ++ rd.name ++ "_" ++ Nat.repr st.regs.length,
                  nextName := ("__reg_" ++ rd.name ++ "_" ++
                    Nat.repr st.regs.length) ++ "_next" })] }
              ((ctx, sid) :: grey) := by
          intro k cr hk
          simp only [mapLookup_append] at hk
          split at hk
          · rename_i hv
            cases hk
            rcases hlce k _ hv with hg | hcl
            · exact Or.inl (List.mem_cons_of_mem _ hg)
            · exact Or.inr fun q hq r hr =>
                regPresent_mono hpres.1 (hcl q hq r hr)
          · rename_i hnone
            simp only [mapLookup] at hk
            split at hk
            · rename_i hkey
              exact Or.inl (hkey ▸ List.mem_cons_self _ _)
            · cases hk
        have hgreyIns : ∀ k ∈ (ctx, sid) :: grey,
            regPresent { st with regs := st.regs ++
              [((ctx, sid),
                { data := data,
                  valueName := "__reg_" ++ rd.name ++ "_" ++ Nat.repr st.regs.length,
                  nextName := ("__reg_" ++ rd.name ++ "_" ++
                    Nat.repr st.regs.length) ++ "_next" })] } k := by
          intro k hk
          rcases List.mem_cons.mp hk with rfl | hk
          · exact ⟨_, mapLookup_append_self habs _⟩
          · exact regPresent_mono hpres.1 (hgrey k hk)
        obtain ⟨hlce', hgrey', hconc⟩ := ih h hlceIns hgreyIns
        have hk0 : regPresent st' (ctx, sid) :=
          hgrey' (ctx, sid) (List.mem_cons_self _ _)
        refine ⟨?_, ?_, ?_⟩
        · intro k cr hk
          rcases hlce' k cr hk with hg | hcl
          · rcases List.mem_cons.mp hg with rfl | hg
            · refine Or.inr ?_
              intro q hq r hr
              simp only [gatherChildren, hsd, hrd, hnxt, List.mem_singleton] at hq
              subst hq
              exact hconc r hr
            · exact Or.inl hg
          · exact Or.inr hcl
        · intro k hk
          exact hgrey' k (List.mem_cons_of_mem _ hk)
        · intro r hr
          cases hr with
          | found hreg => exact hk0
          | step hnreg hq hcr => exact absurd ⟨data, hsd⟩ hnreg
    | UnOp source op =>
      rw [gatherRegs_eq_unop hsd] at h
      obtain ⟨hlce', hgrey', hconc⟩ := ih h hlce hgrey
      refine ⟨hlce', hgrey', ?_⟩
      intro r hr
      cases hr with
      | found hreg => simp [isRegNode, hsd] at hreg
      | step hnreg hq hcr =>
        simp only [gatherChildren, hsd, List.mem_singleton] at hq
        subst hq
        exact hconc r hcr
    | Bits source rangeHigh rangeLow =>
      rw [gatherRegs_eq_bits hsd] at h
      obtain ⟨hlce', hgrey', hconc⟩ := ih h hlce hgrey
      refine ⟨hlce', hgrey', ?_⟩
      intro r hr
      cases hr with
      | found hreg => simp [isRegNode, hsd] at hreg
      | step hnreg hq hcr =>
        simp only [gatherChildren, hsd, List.mem_singleton] at hq
        subst hq
        exact hconc r hcr
    | Repeat source count =>
      rw [gatherRegs_eq_repeat hsd] at h
      obtain ⟨hlce', hgrey', hconc⟩ := ih h hlce hgrey
      refine ⟨hlce', hgrey', ?_⟩
      intro r hr
      cases hr with
      | found hreg => simp [isRegNode, hsd] at hreg
      | step hnreg hq hcr =>
        simp only [gatherChildren, hsd, List.mem_singleton] at hq
        subst hq
        exact hconc r hcr
    | SimpleBinOp lhs rhs op =>
      rw [gatherRegs_eq_simpleBinOp hsd] at h
      simp only [Option.bind_eq_some] at h
      obtain ⟨st1, h1, h2⟩ := h
      obtain ⟨hlce1, hgrey1, hconc1⟩ := ih h1 hlce hgrey
      obtain ⟨hlce2, hgrey2, hconc2⟩ := ih h2 hlce1 hgrey1
      refine ⟨hlce2, hgrey2, ?_⟩
      intro r hr
      cases hr with
      | found hreg => simp [isRegNode, hsd] at hreg
      | step hnreg hq hcr =>
        simp only [gatherChildren, hsd, List.mem_cons, List.mem_singleton,
          List.not_mem_nil, or_false] at hq
        rcases hq with hq | hq <;> subst hq
        · exact regPresent_mono (gatherRegs_pres h2).1 (hconc1 r hcr)
        · exact hconc2 r hcr
    | AdditiveBinOp lhs rhs op =>
      rw [gatherRegs_eq_additiveBinOp hsd] at h
      simp only [Option.bind_eq_some] at h
      obtain ⟨st1, h1, h2⟩ := h
      obtain ⟨hlce1, hgrey1, hconc1⟩ := ih h1 hlce hgrey
      obtain ⟨hlce2, hgrey2, hconc2⟩ := ih h2 hlce1 hgrey1
      refine ⟨hlce2, hgrey2, ?_⟩
      intro r hr
      cases hr with
      | found hreg => simp [isRegNode, hsd] at hreg
      | step hnreg hq hcr =>
        simp only [gatherChildren, hsd, List.mem_cons, List.mem_singleton,
          List.not_mem_nil, or_false] at hq
        rcases hq with hq | hq <;> subst hq
        · exact regPresent_mono (gatherRegs_pres h2).1 (hconc1 r hcr)
        · exact hconc2 r hcr
    | ComparisonBinOp lhs rhs op =>
      rw [gatherRegs_eq_comparisonBinOp hsd] at h
      simp only [Option.bind_eq_some] at h
      obtain ⟨st1, h1, h2⟩ := h
      obtain ⟨hlce1, hgrey1, hconc1⟩ := ih h1 hlce hgrey
      obtain ⟨hlce2, hgrey2, hconc2⟩ := ih h2 hlce1 hgrey1
      refine ⟨hlce2, hgrey2, ?_⟩
      intro r hr
      cases hr with
      | found hreg => simp [isRegNode, hsd] at hreg
      | step hnreg hq hcr =>
        simp only [gatherChildren, hsd, List.mem_cons, List.mem_singleton,
          List.not_mem_nil, or_false] at hq
        rcases hq with hq | hq <;> subst hq
        · exact regPresent_mono (gatherRegs_pres h2).1 (hconc1 r hcr)
        · exact hconc2 r hcr
    | ShiftBinOp lhs rhs op =>
      rw [gatherRegs_eq_shiftBinOp hsd] at h
      simp only [Option.bind_eq_some] at h
      obtain ⟨st1, h1, h2⟩ := h
      obtain ⟨hlce1, hgrey1, hconc1⟩ := ih h1 hlce hgrey
      obtain ⟨hlce2, hgrey2, hconc2⟩ := ih h2 hlce1 hgrey1
      refine ⟨hlce2, hgrey2, ?_⟩
      intro r hr
      cases hr with
      | found hreg => simp [isRegNode, hsd] at hreg
      | step hnreg hq hcr =>
        simp only [gatherChildren, hsd, List.mem_cons, List.mem_singleton,
          List.not_mem_nil, or_false] at hq
        rcases hq with hq | hq <;> subst hq
        · exact regPresent_mono (gatherRegs_pres h2).1 (hconc1 r hcr)
        · exact hconc2 r hcr
    | Concat lhs rhs =>
      rw [gatherRegs_eq_concat hsd] at h
      simp only [Option.bind_eq_some] at h
      obtain ⟨st1, h1, h2⟩ := h
      obtain ⟨hlce1, hgrey1, hconc1⟩ := ih h1 hlce hgrey
      obtain ⟨hlce2, hgrey2, hconc2⟩ := ih h2 hlce1 hgrey1
      refine ⟨hlce2, hgrey2, ?_⟩
      intro r hr
      cases hr with
      | found hreg => simp [isRegNode, hsd] at hreg
      | step hnreg hq hcr =>
        simp only [gatherChildren, hsd, List.mem_cons, List.mem_singleton,
          List.not_mem_nil, or_false] at hq
        rcases hq with hq | hq <;> subst hq
        · exact regPresent_mono (gatherRegs_pres h2).1 (hconc1 r hcr)
        · exact hconc2 r hcr
    | Mux cond whenTrue whenFalse =>
      rw [gatherRegs_eq_mux hsd] at h
      simp only [Option.bind_eq_some] at h
      obtain ⟨st1, h1, st2, h2, h3⟩ := h
      obtain ⟨hlce1, hgrey1, hconc1⟩ := ih h1 hlce hgrey
      obtain ⟨hlce2, hgrey2, hconc2⟩ := ih h2 hlce1 hgrey1
      obtain ⟨hlce3, hgrey3, hconc3⟩ := ih h3 hlce2 hgrey2
      refine ⟨hlce3, hgrey3, ?_⟩
      intro r hr
      cases hr with
      | found hreg => simp [isRegNode, hsd] at hreg
      | step hnreg hq hcr =>
        simp only [gatherChildren, hsd, List.mem_cons, List.mem_singleton,
          List.not_mem_nil, or_false] at hq
        rcases hq with hq | hq | hq <;> subst hq
        · exact regPresent_mono
            (regsMono_trans (gatherRegs_pres h2).1 (gatherRegs_pres h3).1)
            (hconc1 r hcr)
        · exact regPresent_mono (gatherRegs_pres h3).1 (hconc2 r hcr)
        · exact hconc3 r hcr
    | InstanceOutput inst name =>
      rw [gatherRegs_eq_instanceOutput hsd] at h
      simp only [Option.bind_eq_some] at h
      obtain ⟨i, hi, m, hm, out, hout, h⟩ := h
      obtain ⟨hlce', hgrey', hconc⟩ := ih h hlce hgrey
      refine ⟨hlce', hgrey', ?_⟩
      intro r hr
      cases hr with
      | found hreg => simp [isRegNode, hsd] at hreg
      | step hnreg hq hcr =>
        simp only [gatherChildren, hsd, hi, hm, hout, List.mem_singleton] at hq
        subst hq
        exact hconc r hcr

/-- Strings with the same appended suffix agree. -/
theorem string_append_right_cancel {a b s : String} (h : a ++ s = b ++ s) :
    a = b := by
  have hd := congrArg String.data h
  simp only [String.data_append] at hd
  exact String.ext (List.append_cancel_right hd)

/-- With no grey keys, local closure propagates along full reachability:
any register reachable from a point whose combinationally-reachable
registers are all present is itself present. -/
theorem reach_present {g : graph.Graph} {st : Compiler}
    (hlce : LCE g st []) :
    ∀ {p r : Ctx × Nat}, Reach g p r → isRegNode g r.2 →
      (∀ x, CReach g p x → regPresent st x) → regPresent st r := by
  intro p r hreach
  induction hreach using Relation.ReflTransGen.head_induction_on with
  | refl =>
    intro hregr hcp
    exact hcp r (CReach.found hregr)
  | head hq tail ih =>
    rename_i a c
    intro hregr hcp
    refine ih hregr ?_
    intro x hcx
    by_cases hra : isRegNode g a.2
    · obtain ⟨cr, hcr⟩ := hcp a (CReach.found hra)
      rcases hlce a cr hcr with hg | hcl
      · simp at hg
      · exact hcl c hq x hcx
    · exact hcp x (CReach.step hra hq hcx)

theorem nodup_keys_eq {α β : Type} [DecidableEq α] :
    ∀ {l : List (α × β)}, (l.map Prod.fst).Nodup →
      ∀ {k : α} {v1 v2 : β}, (k, v1) ∈ l → (k, v2) ∈ l → v1 = v2 := by
  intro l
  induction l with
  | nil => intro _ k v1 v2 h; simp at h
  | cons p t ih =>
    obtain ⟨k0, w⟩ := p
    intro hnd k v1 v2 h1 h2
    simp only [List.map_cons, List.nodup_cons] at hnd
    rcases List.mem_cons.mp h1 with h1 | h1 <;>
      rcases List.mem_cons.mp h2 with h2 | h2
    · cases h1; cases h2; rfl
    · cases h1
      exact absurd (List.mem_map_of_mem Prod.fst h2) hnd.1
    · cases h2
      exact absurd (List.mem_map_of_mem Prod.fst h1) hnd.1
    · exact ih hnd.2 h1 h2

theorem LCE_new (g : graph.Graph) : LCE g Compiler.new [] := by
  intro k cr h
  simp [Compiler.new, mapLookup] at h

theorem RegsNamesInv_new : RegsNamesInv Compiler.new := by
  intro i hi
  simp [Compiler.new] at hi

theorem RegsKeysNodup_new : RegsKeysNodup Compiler.new := by
  simp [Compiler.new, RegsKeysNodup]

/-- C3: after a successful discovery pass from a well-formed state, every
register reachable along the discovery edges has an entry; distinct
entries carry distinct `(value_name, next_name)` storage pairs; the same
`(context, signal)` key maps to a unique entry; and the same register
signal reached under two distinct instance paths gets two entries with
distinct storage names. -/
theorem gather_regs_discovery {g : graph.Graph} {f sid : Nat} {ctx : Ctx}
    {st st' : Compiler}
    (h : gatherRegs g f sid ctx st = some st')
    (hlce : LCE g st []) (hnames : RegsNamesInv st)
    (hnodup : RegsKeysNodup st) :
    (∀ r, Reach g (ctx, sid) r → isRegNode g r.2 → regPresent st' r) ∧
    (∀ i j (hi : i < st'.regs.length) (hj : j < st'.regs.length), i ≠ j →
      (st'.regs.get ⟨i, hi⟩).2.valueName ≠ (st'.regs.get ⟨j, hj⟩).2.valueName ∧
      (st'.regs.get ⟨i, hi⟩).2.nextName ≠ (st'.regs.get ⟨j, hj⟩).2.nextName) ∧
    (∀ k (cr1 cr2 : CompiledRegister), (k, cr1) ∈ st'.regs →
      (k, cr2) ∈ st'.regs → cr1 = cr2) ∧
    (∀ c1 c2 s (cr1 cr2 : CompiledRegister), c1 ≠ c2 →
      mapLookup (c1, s) st'.regs = some cr1 →
      mapLookup (c2, s) st'.regs = some cr2 →
      cr1.valueName ≠ cr2.valueName ∧ cr1.nextName ≠ cr2.nextName) := by
  obtain ⟨hlce', hgrey', hconc⟩ := gatherRegs_closure h hlce (by simp)
  have hnames' : RegsNamesInv st' := (gatherRegs_pres h).2.1 hnames
  have hnodup' : RegsKeysNodup st' := (gatherRegs_pres h).2.2 hnodup
  have hdistinct : ∀ i j (hi : i < st'.regs.length)
      (hj : j < st'.regs.length), i ≠ j →
      (st'.regs.get ⟨i, hi⟩).2.valueName ≠
        (st'.regs.get ⟨j, hj⟩).2.valueName ∧
      (st'.regs.get ⟨i, hi⟩).2.nextName ≠
        (st'.regs.get ⟨j, hj⟩).2.nextName := by
    intro i j hi hj hij
    obtain ⟨nm1, hv1, hn1⟩ := hnames' i hi
    obtain ⟨nm2, hv2, hn2⟩ := hnames' j hj
    have hval : (st'.regs.get ⟨i, hi⟩).2.valueName ≠
        (st'.regs.get ⟨j, hj⟩).2.valueName := by
      rw [hv1, hv2]
      intro hc
      exact hij (name_index_injective ("__reg_" ++ nm1) ("__reg_" ++ nm2) i j hc)
    refine ⟨hval, ?_⟩
    rw [hn1, hn2]
    intro hc
    exact hval (string_append_right_cancel hc)
  refine ⟨?_, hdistinct, ?_, ?_⟩
  · intro r hr hreg
    exact reach_present hlce' hr hreg hconc
  · intro k cr1 cr2 h1 h2
    exact nodup_keys_eq hnodup' h1 h2
  · intro c1 c2 s cr1 cr2 hne h1 h2
    obtain ⟨i, hig⟩ := List.mem_iff_get.mp (mapLookup_mem h1)
    obtain ⟨j, hjg⟩ := List.mem_iff_get.mp (mapLookup_mem h2)
    have hij : i.1 ≠ j.1 := by
      intro hc
      have : st'.regs.get i = st'.regs.get j := by
        congr 1
        exact Fin.ext hc
      rw [hig, hjg] at this
      exact hne (congrArg (fun p => p.1.1) this)
    have := hdistinct i.1 j.1 i.2 j.2 hij
    have e1 : (st'.regs.get ⟨i.1, i.2⟩).2 = cr1 := by
      rw [show (⟨i.1, i.2⟩ : Fin st'.regs.length) = i from rfl, hig]
    have e2 : (st'.regs.get ⟨j.1, j.2⟩).2 = cr2 := by
      rw [show (⟨j.1, j.2⟩ : Fin st'.regs.length) = j from rfl, hjg]
    rw [e1, e2] at this
    exact this

/-- A self-looping register: its next value is its own current value. -/
def regLoopGraph : graph.Graph :=
  { signals := [.Reg 0],
    regDatas := [{ name := "r", bitWidth := 8, initialValue := none,
                   next := some 0 }],
    instances := [], modules := [] }

/-- The compiler state after discovery on `regLoopGraph`. -/
def regLoopState : Compiler :=
  { regs := [(([], 0), { data := 0, valueName := "__reg_r_0",
                          nextName := "__reg_r_0_next" })],
    signalExprs := [], propAssignments := [], localCount := 0 }

theorem compileSignalData_eq_reg {g : graph.Graph}
    {recur : Nat → Ctx → Compiler → Option (Expr × Compiler)}
    {w sid d : Nat} {ctx : Ctx} {st : Compiler} :
    compileSignalData g recur w sid (.Reg d) ctx st =
      (mapLookup (ctx, sid) st.regs).bind fun cr =>
        some (Expr.Ref cr.valueName RefScope.Member, st) := rfl

theorem compileSignal_eq_miss {g : graph.Graph} {f sid : Nat} {ctx : Ctx}
    {st : Compiler} {sd : graph.SignalData}
    (hmemo : mapLookup (ctx, sid) st.signalExprs = none)
    (hsd : g.signals[sid]? = some sd) :
    compileSignal g (f + 1) sid ctx st =
      match compileSignalData g (fun s c stx => compileSignal g f s c stx)
          (f + 1) sid sd ctx st with
      | none => none
      | some (expr, st1) =>
        some (expr,
          { st1 with signalExprs := ((ctx, sid), expr) :: st1.signalExprs }) := by
  rw [compileSignal, hmemo, hsd]
  dsimp only
  cases hdata : compileSignalData g (fun s c stx => compileSignal g f s c stx)
      (f + 1) sid sd ctx st with
  | none => rfl
  | some p =>
    obtain ⟨expr, st1⟩ := p
    simp [mapLookup]

/-- C9: `compile_signal`'s `Reg` arm indexes the discovery table with a
panicking lookup, so (absent a memoized entry) it completes exactly when
the `(context, signal)` key is in the table; and a successful
`gather_regs` visit of that `Reg` guarantees the key is in the table. -/
theorem compileSignal_reg_panic_guard {g : graph.Graph} {f sid d : Nat}
    {ctx : Ctx} {st : Compiler}
    (hsd : g.signals[sid]? = some (.Reg d))
    (hmemo : mapLookup (ctx, sid) st.signalExprs = none) :
    ((compileSignal g (f + 1) sid ctx st).isSome ↔ regPresent st (ctx, sid)) ∧
    (∀ st', gatherRegs g (f + 1) sid ctx st = some st' →
      regPresent st' (ctx, sid)) := by
  constructor
  · rw [compileSignal_eq_miss hmemo hsd, compileSignalData_eq_reg]
    cases hcr : mapLookup (ctx, sid) st.regs with
    | none =>
      simp only [Option.none_bind]
      constructor
      · intro h
        simp at h
      · intro h
        obtain ⟨cr, hc⟩ := h
        rw [hc] at hcr
        cases hcr
    | some cr =>
      simp only [Option.some_bind]
      constructor
      · intro _
        exact ⟨cr, hcr⟩
      · intro _
        rfl
  · intro st' h
    rw [gatherRegs_eq_reg hsd] at h
    split at h
    · rename_i cr hcr
      cases h
      exact ⟨cr, hcr⟩
    · rename_i habs
      simp only [Option.bind_eq_some] at h
      obtain ⟨rd, hrd, nxt, hnxt, h⟩ := h
      exact regPresent_mono (gatherRegs_pres h).1
        ⟨_, mapLookup_append_self habs _⟩

theorem compileSignal_reg_panic_guard_witness :
    ((compileSignal regLoopGraph (1 + 1) 0 [] regLoopState).isSome ↔
      regPresent regLoopState ([], 0)) ∧
    (∀ st', gatherRegs regLoopGraph (1 + 1) 0 [] regLoopState = some st' →
      regPresent st' ([], 0)) :=
  @compileSignal_reg_panic_guard regLoopGraph 1 0 0 [] regLoopState
    (by decide) (by decide)

/-- C3 witness: discovery on the self-looping register. -/
theorem gather_regs_discovery_witness :
    (∀ r, Reach regLoopGraph ([], 0) r → isRegNode regLoopGraph r.2 →
      regPresent regLoopState r) ∧
    (∀ i j (hi : i < regLoopState.regs.length)
      (hj : j < regLoopState.regs.length), i ≠ j →
      (regLoopState.regs.get ⟨i, hi⟩).2.valueName ≠
        (regLoopState.regs.get ⟨j, hj⟩).2.valueName ∧
      (regLoopState.regs.get ⟨i, hi⟩).2.nextName ≠
        (regLoopState.regs.get ⟨j, hj⟩).2.nextName) ∧
    (∀ k (cr1 cr2 : CompiledRegister), (k, cr1) ∈ regLoopState.regs →
      (k, cr2) ∈ regLoopState.regs → cr1 = cr2) ∧
    (∀ c1 c2 s (cr1 cr2 : CompiledRegister), c1 ≠ c2 →
      mapLookup (c1, s) regLoopState.regs = some cr1 →
      mapLookup (c2, s) regLoopState.regs = some cr2 →
      cr1.valueName ≠ cr2.valueName ∧ cr1.nextName ≠ cr2.nextName) :=
  @gather_regs_discovery regLoopGraph 2 0 [] Compiler.new regLoopState
    (by decide) (LCE_new regLoopGraph) RegsNamesInv_new RegsKeysNodup_new

end sim

/-! ## The Verilog emitter (`src/kaze/src/verilog.rs`) -/

namespace verilog

/-- Modelled from the spec: the indentation/line-emit helper
(`code_writer.rs` is not under `src/`).  `CodeWriter` tracks the output
string and the current indentation level (four spaces per level). -/
structure CodeWriter where
  out : String
  indentLevel : Nat

def indentation : Nat → String
  | 0 => ""
  | n + 1 => indentation n ++ "    "

def CodeWriter.append (w : CodeWriter) (s : String) : CodeWriter :=
  { w with out := w.out ++ s }

def CodeWriter.appendIndent (w : CodeWriter) : CodeWriter :=
  w.append (indentation w.indentLevel)

def CodeWriter.appendNewline (w : CodeWriter) : CodeWriter :=
  w.append "\n"

def CodeWriter.appendLine (w : CodeWriter) (s : String) : CodeWriter :=
  ((w.appendIndent).append s).appendNewline

def CodeWriter.indent (w : CodeWriter) : CodeWriter :=
  { w with indentLevel := w.indentLevel + 1 }

def CodeWriter.unindent (w : CodeWriter) : CodeWriter :=
  { w with indentLevel := w.indentLevel - 1 }

/-- Lowercase hexadecimal rendering, as Rust's `{:x}`. -/
def hexStr (n : Nat) : String := (Nat.toDigits 16 n).asString

/-- `verilog::module_decls::RegisterDecls`. -/
structure RegisterDecls where
  data : graph.RegisterData
  valueName : String
  nextName : String

/-- The register `always` block emission, `verilog.rs` lines 370-401. -/
def emitRegAlways (r : RegisterDecls) (w : CodeWriter) : CodeWriter :=
  let w := w.appendIndent
  let w := w.append "always @(posedge clk"
  let w := if r.data.initialValue.isSome then w.append ", negedge reset_n" else w
  let w := w.append ") begin"
  let w := w.appendNewline
  let w := w.indent
  let w := match r.data.initialValue with
    | some initialValue =>
      let w := w.appendLine "if (~reset_n) begin"
      let w := w.indent
      let w := w.appendLine (r.valueName ++ " <= " ++
        Nat.repr r.data.bitWidth ++ "'h" ++ hexStr initialValue.numericValue ++ ";")
      let w := w.unindent
      let w := w.appendLine "end"
      let w := w.appendLine "else begin"
      w.indent
    | none => w
  let w := w.appendLine (r.valueName ++ " <= " ++ r.nextName ++ ";")
  let w := if r.data.initialValue.isSome then (w.unindent).appendLine "end" else w
  let w := w.unindent
  let w := w.appendLine "end"
  w.appendNewline

/-- The register `always` block as the claim describes it. -/
def regAlwaysClaim (r : RegisterDecls) (ind : Nat) : String :=
  match r.data.initialValue with
  | some initialValue =>
    indentation ind ++ "always @(posedge clk, negedge reset_n) begin\n" ++
    indentation (ind + 1) ++ "if (~reset_n) begin\n" ++
    indentation (ind + 2) ++ r.valueName ++ " <= " ++
      Nat.repr r.data.bitWidth ++ "'h" ++ hexStr initialValue.numericValue ++ ";\n" ++
    indentation (ind + 1) ++ "end\n" ++
    indentation (ind + 1) ++ "else begin\n" ++
    indentation (ind + 2) ++ r.valueName ++ " <= " ++ r.nextName ++ ";\n" ++
    indentation (ind + 1) ++ "end\n" ++
    indentation ind ++ "end\n" ++
    "\n"
  | none =>
    indentation ind ++ "always @(posedge clk) begin\n" ++
    indentation (ind + 1) ++ r.valueName ++ " <= " ++ r.nextName ++ ";\n" ++
    indentation ind ++ "end\n" ++
    "\n"

theorem emitRegAlways_spec (r : RegisterDecls) (w : CodeWriter) :
    (emitRegAlways r w).out = w.out ++ regAlwaysClaim r w.indentLevel ∧
    (emitRegAlways r w).indentLevel = w.indentLevel := by
  cases h : r.data.initialValue with
  | some iv =>
    constructor <;>
      simp [emitRegAlways, regAlwaysClaim, h, CodeWriter.append,
        CodeWriter.appendIndent, CodeWriter.appendNewline, CodeWriter.appendLine,
        CodeWriter.indent, CodeWriter.unindent, indentation, String.append_assoc]
  | none =>
    constructor <;>
      simp [emitRegAlways, regAlwaysClaim, h, CodeWriter.append,
        CodeWriter.appendIndent, CodeWriter.appendNewline, CodeWriter.appendLine,
        CodeWriter.indent, CodeWriter.unindent, indentation, String.append_assoc]

/-- Modelled from the spec §3: `graph::Mem`, restricted to the fields the
memory declaration emission reads (`graph.rs` is not under `src/`). -/
structure Mem where
  name : String
  addressBitWidth : Nat
  elementBitWidth : Nat
  initialContents : Option (List graph.Constant)

/-- The per-element loop of the `initial begin` block,
`verilog.rs` lines 326-334 (`i` is the enumeration index). -/
def emitMemInitLines (name : String) (elemW : Nat) :
    Nat → List graph.Constant → CodeWriter → CodeWriter
  | _, [], w => w
  | i, e :: rest, w =>
    emitMemInitLines name elemW (i + 1) rest
      (w.appendLine (name ++ "[" ++ Nat.repr i ++ "] = " ++ Nat.repr elemW ++
        "'h" ++ hexStr e.numericValue ++ ";"))

/-- The memory declaration and initial-contents emission,
`verilog.rs` lines 309-338. -/
def emitMemDecl (m : Mem) (w : CodeWriter) : CodeWriter :=
  let w := w.appendIndent
  let w := w.append "reg "
  let w := if m.elementBitWidth > 1 then
      w.append ("[" ++ Nat.repr (m.elementBitWidth - 1) ++ ":0] ")
    else w
  let w := w.append (m.name ++ "[0:" ++ Nat.repr (2 ^ m.addressBitWidth - 1) ++ "];")
  let w := w.appendNewline
  let w := w.appendNewline
  match m.initialContents with
  | some initialContents =>
    let w := w.appendLine "initial begin"
    let w := w.indent
    let w := emitMemInitLines m.name m.elementBitWidth 0 initialContents w
    let w := w.unindent
    let w := w.appendLine "end"
    w.appendNewline
  | none => w

/-- The initial-contents lines as the claim describes them: one line per
element, in index order. -/
def memInitClaim (name : String) (elemW ind : Nat) :
    Nat → List graph.Constant → String
  | _, [] => ""
  | i, e :: rest =>
    indentation ind ++ name ++ "[" ++ Nat.repr i ++ "] = " ++ Nat.repr elemW ++
      "'h" ++ hexStr e.numericValue ++ ";\n" ++ memInitClaim name elemW ind (i + 1) rest

/-- The memory declaration as the claim (and spec §6.3) words it: the
element-width prefix is always present. -/
def memDeclClaim (m : Mem) (ind : Nat) : String :=
  indentation ind ++ "reg [" ++ Nat.repr (m.elementBitWidth - 1) ++ ":0] " ++
  m.name ++ "[0:" ++ Nat.repr (2 ^ m.addressBitWidth - 1) ++ "];\n\n" ++
  (match m.initialContents with
   | some l =>
     indentation ind ++ "initial begin\n" ++
     memInitClaim m.name m.elementBitWidth (ind + 1) 0 l ++
     indentation ind ++ "end\n\n"
   | none => "")

/-- The memory declaration as the code actually renders it: the
element-width prefix appears only when the element width exceeds one. -/
def memDeclAmended (m : Mem) (ind : Nat) : String :=
  indentation ind ++ "reg " ++
  (if m.elementBitWidth > 1 then
    "[" ++ Nat.repr (m.elementBitWidth - 1) ++ ":0] " else "") ++
  m.name ++ "[0:" ++ Nat.repr (2 ^ m.addressBitWidth - 1) ++ "];\n\n" ++
  (match m.initialContents with
   | some l =>
     indentation ind ++ "initial begin\n" ++
     memInitClaim m.name m.elementBitWidth (ind + 1) 0 l ++
     indentation ind ++ "end\n\n"
   | none => "")

theorem emitMemInitLines_out (name : String) (elemW : Nat) :
    ∀ (l : List graph.Constant) (i : Nat) (w : CodeWriter),
      (emitMemInitLines name elemW i l w).out =
        w.out ++ memInitClaim name elemW w.indentLevel i l := by
  intro l
  induction l with
  | nil => intro i w; simp [emitMemInitLines, memInitClaim]
  | cons e rest ih =>
    intro i w
    rw [emitMemInitLines, ih]
    simp [memInitClaim, CodeWriter.appendLine, CodeWriter.appendIndent,
      CodeWriter.append, CodeWriter.appendNewline, String.append_assoc]

theorem emitMemInitLines_level (name : String) (elemW : Nat) :
    ∀ (l : List graph.Constant) (i : Nat) (w : CodeWriter),
      (emitMemInitLines name elemW i l w).indentLevel = w.indentLevel := by
  intro l
  induction l with
  | nil => intro i w; simp [emitMemInitLines]
  | cons e rest ih =>
    intro i w
    rw [emitMemInitLines, ih]
    rfl

/-- A memory with one-bit elements and one address bit. -/
def memWidthOne : Mem :=
  { name := "m", addressBitWidth := 1, elementBitWidth := 1,
    initialContents := none }

/-- C8 counterexample: a one-bit-element memory is declared without the
`[0:0]` width prefix. -/
theorem memDecl_prefix_missing_for_width_one :
    (emitMemDecl memWidthOne { out := "", indentLevel := 0 }).out =
      "reg m[0:1];\n\n" ∧
    memDeclClaim memWidthOne 0 = "reg [0:0] m[0:1];\n\n" ∧
    (emitMemDecl memWidthOne { out := "", indentLevel := 0 }).out ≠
      "" ++ memDeclClaim memWidthOne 0 := by
  refine ⟨by decide, by decide, by decide⟩

/-- C8 (amended): every memory is declared `reg [elem_w-1:0] name[0:2^addr_w-1];`
with the width prefix present exactly when `elem_w > 1`, and initial
contents render as one `name[i] = <elem_w>'h<hex>;` line per element in
index order inside an `initial begin` block. -/
theorem emitMemDecl_spec (m : Mem) (w : CodeWriter) :
    (emitMemDecl m w).out = w.out ++ memDeclAmended m w.indentLevel ∧
    (emitMemDecl m w).indentLevel = w.indentLevel := by
  cases hic : m.initialContents with
  | some l =>
    constructor <;>
      by_cases hw : m.elementBitWidth > 1 <;>
        simp [emitMemDecl, memDeclAmended, hic, hw, emitMemInitLines_out,
          emitMemInitLines_level, CodeWriter.append, CodeWriter.appendIndent,
          CodeWriter.appendNewline, CodeWriter.appendLine, CodeWriter.indent,
          CodeWriter.unindent, indentation, String.append_assoc]
  | none =>
    constructor <;>
      by_cases hw : m.elementBitWidth > 1 <;>
        simp [emitMemDecl, memDeclAmended, hic, hw, CodeWriter.append,
          CodeWriter.appendIndent, CodeWriter.appendNewline, CodeWriter.indent,
          CodeWriter.unindent, indentation, String.append_assoc]

end verilog

end Kaze

namespace Kaze
namespace sim

/-- Success of `gather_regs` is stable under extra fuel, with the same
result. -/
theorem gatherRegs_fuel_succ {g : graph.Graph} :
    ∀ {f sid : Nat} {ctx : Ctx} {st st' : Compiler},
      gatherRegs g f sid ctx st = some st' →
      gatherRegs g (f + 1) sid ctx st = some st' := by
  intro f
  induction f with
  | zero =>
    intro sid ctx st st' h
    simp [gatherRegs] at h
  | succ f ih =>
    intro sid ctx st st' h
    rcases hsd : g.signals[sid]? with _ | sd
    · rw [gatherRegs_eq_noSignal hsd] at h
      cases h
    cases sd with
    | Lit value bitWidth =>
      rw [gatherRegs_eq_lit hsd] at h
      rw [gatherRegs_eq_lit hsd]
      exact h
    | Input name bitWidth =>
      cases ctx with
      | cons inst parent =>
        rw [gatherRegs_eq_input_nonroot hsd] at h
        rw [gatherRegs_eq_input_nonroot hsd]
        simp only [Option.bind_eq_some] at h ⊢
        obtain ⟨i, hi, d, hd, h⟩ := h
        exact ⟨i, hi, d, hd, ih h⟩
      | nil =>
        rw [gatherRegs_eq_input_root hsd] at h
        rw [gatherRegs_eq_input_root hsd]
        exact h
    | Reg data =>
      rw [gatherRegs_eq_reg hsd] at h
      rw [gatherRegs_eq_reg hsd]
      split at h
      · rename_i cr hcr
        exact h
      · rename_i habs
        simp only [Option.bind_eq_some] at h ⊢
        obtain ⟨rd, hrd, nxt, hnxt, h⟩ := h
        exact ⟨rd, hrd, nxt, hnxt, ih h⟩
    | UnOp source op =>
      rw [gatherRegs_eq_unop hsd] at h
      rw [gatherRegs_eq_unop hsd]
      exact ih h
    | SimpleBinOp lhs rhs op =>
      rw [gatherRegs_eq_simpleBinOp hsd] at h
      rw [gatherRegs_eq_simpleBinOp hsd]
      simp only [Option.bind_eq_some] at h ⊢
      obtain ⟨st1, h1, h2⟩ := h
      exact ⟨st1, ih h1, ih h2⟩
    | AdditiveBinOp lhs rhs op =>
      rw [gatherRegs_eq_additiveBinOp hsd] at h
      rw [gatherRegs_eq_additiveBinOp hsd]
      simp only [Option.bind_eq_some] at h ⊢
      obtain ⟨st1, h1, h2⟩ := h
      exact ⟨st1, ih h1, ih h2⟩
    | ComparisonBinOp lhs rhs op =>
      rw [gatherRegs_eq_comparisonBinOp hsd] at h
      rw [gatherRegs_eq_comparisonBinOp hsd]
      simp only [Option.bind_eq_some] at h ⊢
      obtain ⟨st1, h1, h2⟩ := h
      exact ⟨st1, ih h1, ih h2⟩
    | ShiftBinOp lhs rhs op =>
      rw [gatherRegs_eq_shiftBinOp hsd] at h
      rw [gatherRegs_eq_shiftBinOp hsd]
      simp only [Option.bind_eq_some] at h ⊢
      obtain ⟨st1, h1, h2⟩ := h
      exact ⟨st1, ih h1, ih h2⟩
    | Bits source rangeHigh rangeLow =>
      rw [gatherRegs_eq_bits hsd] at h
      rw [gatherRegs_eq_bits hsd]
      exact ih h
    | Repeat source count =>
      rw [gatherRegs_eq_repeat hsd] at h
      rw [gatherRegs_eq_repeat hsd]
      exact ih h
    | Concat lhs rhs =>
      rw [gatherRegs_eq_concat hsd] at h
      rw [gatherRegs_eq_concat hsd]
      simp only [Option.bind_eq_some] at h ⊢
      obtain ⟨st1, h1, h2⟩ := h
      exact ⟨st1, ih h1, ih h2⟩
    | Mux cond whenTrue whenFalse =>
      rw [gatherRegs_eq_mux hsd] at h
      rw [gatherRegs_eq_mux hsd]
      simp only [Option.bind_eq_some] at h ⊢
      obtain ⟨st1, h1, st2, h2, h3⟩ := h
      exact ⟨st1, ih h1, st2, ih h2, ih h3⟩
    | InstanceOutput inst name =>
      rw [gatherRegs_eq_instanceOutput hsd] at h
      rw [gatherRegs_eq_instanceOutput hsd]
      simp only [Option.bind_eq_some] at h ⊢
      obtain ⟨i, hi, m, hm, out, hout, h⟩ := h
      exact ⟨i, hi, m, hm, out, hout, ih h⟩

theorem gatherRegs_fuel_le {g : graph.Graph} {f F sid : Nat} {ctx : Ctx}
    {st st' : Compiler} (hle : f ≤ F)
    (h : gatherRegs g f sid ctx st = some st') :
    gatherRegs g F sid ctx st = some st' := by
  induction F with
  | zero =>
    have : f = 0 := Nat.le_zero.mp hle
    subst this
    exact h
  | succ F ih =>
    rcases Nat.lt_or_ge f (F + 1) with hlt | hge
    · exact gatherRegs_fuel_succ (ih (Nat.lt_succ_iff.mp hlt))
    · have : f = F + 1 := Nat.le_antisymm hle hge
      subst this
      exact h

/-- Is the signal a `Reg` node (decidable form)? -/
def isRegB (g : graph.Graph) (sid : Nat) : Bool :=
  match g.signals[sid]? with
  | some (.Reg _) => true
  | _ => false

/-- Do all graph lookups performed by `gather_regs` at this node succeed
(so the node itself cannot panic)? -/
def nodeOk (g : graph.Graph) (ctx : Ctx) (sid : Nat) : Bool :=
  match g.signals[sid]? with
  | none => false
  | some sd =>
    match sd with
    | .Input name _ =>
      match ctx with
      | inst :: _ =>
        match g.instances[inst]? with
        | none => false
        | some i => (mapLookup name i.drivenInputs).isSome
      | [] => true
    | .Reg d =>
      match g.regDatas[d]? with
      | none => false
      | some rd => rd.next.isSome
    | .InstanceOutput inst name =>
      match g.instances[inst]? with
      | none => false
      | some i =>
        match g.modules[i.instantiatedModule]? with
        | none => false
        | some m => (mapLookup name m.outputs).isSome
    | _ => true

/-- The number of register nodes of `W` not yet in the discovery table. -/
def unvisited (g : graph.Graph) (W : List (Ctx × Nat)) (st : Compiler) : Nat :=
  (W.filter (fun p => isRegB g p.2 && (mapLookup p st.regs).isNone)).length

theorem filter_length_le {α : Type} {p q : α → Bool} :
    ∀ (l : List α), (∀ a ∈ l, p a = true → q a = true) →
      (l.filter p).length ≤ (l.filter q).length := by
  intro l
  induction l with
  | nil => intro _; simp
  | cons a t ih =>
    intro h
    have iht := ih (fun b hb => h b (List.mem_cons_of_mem _ hb))
    rw [List.filter_cons, List.filter_cons]
    cases hp : p a with
    | true =>
      rw [h a (List.mem_cons_self _ _) hp]
      simpa using iht
    | false =>
      cases hq : q a with
      | true =>
        simp only [if_true, if_false, Bool.false_eq_true, List.length_cons]
        exact Nat.le_succ_of_le iht
      | false =>
        simpa using iht

theorem filter_length_lt {α : Type} {p q : α → Bool} {x : α} :
    ∀ {l : List α}, l.Nodup → x ∈ l →
      (∀ a ∈ l, p a = true → q a = true) →
      q x = true → p x = false →
      (l.filter p).length < (l.filter q).length := by
  intro l
  induction l with
  | nil => intro _ hx; simp at hx
  | cons a t ih =>
    intro hnd hx h hq hp
    rw [List.nodup_cons] at hnd
    rw [List.filter_cons, List.filter_cons]
    rcases List.mem_cons.mp hx with rfl | hx
    · rw [hp, hq]
      simp only [Bool.false_eq_true, if_false, if_true, List.length_cons]
      exact Nat.lt_succ_of_le
        (filter_length_le t (fun b hb => h b (List.mem_cons_of_mem _ hb)))
    · have iht := ih hnd.2 hx (fun b hb => h b (List.mem_cons_of_mem _ hb)) hq hp
      cases hpa : p a with
      | true =>
        rw [h a (List.mem_cons_self _ _) hpa]
        simpa using iht
      | false =>
        cases hqa : q a with
        | true =>
          simp only [Bool.false_eq_true, if_false, if_true, List.length_cons]
          exact Nat.lt_succ_of_lt iht
        | false =>
          simpa using iht

theorem unvisited_mono {g : graph.Graph} {W : List (Ctx × Nat)}
    {st st' : Compiler} (hm : regsMono st st') :
    unvisited g W st' ≤ unvisited g W st := by
  refine filter_length_le W ?_
  intro a _ ha
  rw [Bool.and_eq_true] at ha ⊢
  refine ⟨ha.1, ?_⟩
  cases hlook : mapLookup a st.regs with
  | none => rfl
  | some v =>
    rw [hm a v hlook] at ha
    simp at ha

theorem unvisited_insert_lt {g : graph.Graph} {W : List (Ctx × Nat)}
    {st st' : Compiler} {p : Ctx × Nat} {cr : CompiledRegister}
    (hWnd : W.Nodup) (hp : p ∈ W) (hreg : isRegB g p.2 = true)
    (habs : mapLookup p st.regs = none)
    (hins : mapLookup p st'.regs = some cr)
    (hm : regsMono st st') :
    unvisited g W st' < unvisited g W st := by
  refine filter_length_lt hWnd hp ?_ ?_ ?_
  · intro a _ ha
    rw [Bool.and_eq_true] at ha ⊢
    refine ⟨ha.1, ?_⟩
    cases hlook : mapLookup a st.regs with
    | none => rfl
    | some v =>
      rw [hm a v hlook] at ha
      simp at ha
  · rw [Bool.and_eq_true, habs]
    exact ⟨hreg, rfl⟩
  · rw [hins]
    simp

theorem measure_sibling_lt {a b R rq rp n : Nat} (hU : a ≤ b) (h1 : rq < rp)
    (h2 : b * (R + 1) + rp ≤ n) : a * (R + 1) + rq < n :=
  calc a * (R + 1) + rq ≤ b * (R + 1) + rq :=
        Nat.add_le_add_right (Nat.mul_le_mul_right _ hU) _
    _ < b * (R + 1) + rp := Nat.add_lt_add_left h1 _
    _ ≤ n := h2

theorem measure_reg_lt {a b R rq rp n : Nat} (hU : a < b) (h1 : rq ≤ R)
    (h2 : b * (R + 1) + rp ≤ n) : a * (R + 1) + rq < n :=
  calc a * (R + 1) + rq ≤ a * (R + 1) + R := Nat.add_le_add_left h1 _
    _ < a * (R + 1) + (R + 1) := Nat.add_lt_add_left (Nat.lt_succ_self R) _
    _ = (a + 1) * (R + 1) := by ring
    _ ≤ b * (R + 1) := Nat.mul_le_mul_right _ hU
    _ ≤ b * (R + 1) + rp := Nat.le_add_right _ _
    _ ≤ n := h2

/-- The conclusion of the termination argument, as a predicate. -/
def GatherTotal (g : graph.Graph) (W : List (Ctx × Nat)) (st : Compiler)
    (ctx : Ctx) (sid : Nat) : Prop :=
  ∃ F st', gatherRegs g F sid ctx st = some st' ∧ regsMono st st' ∧
    unvisited g W st' ≤ unvisited g W st

theorem gatherRegs_total_one {g : graph.Graph} {W : List (Ctx × Nat)}
    {rank : Ctx × Nat → Nat} {R n : Nat}
    (hclosed : ∀ p ∈ W, ∀ q ∈ gatherChildren g p.1 p.2, q ∈ W)
    (hdec : ∀ p ∈ W, isRegB g p.2 = false →
      ∀ q ∈ gatherChildren g p.1 p.2, rank q < rank p)
    (ih : ∀ m, m < n → ∀ (st : Compiler) (ctx : Ctx) (sid : Nat),
      (ctx, sid) ∈ W → unvisited g W st * (R + 1) + rank (ctx, sid) ≤ m →
      GatherTotal g W st ctx sid)
    {ctx : Ctx} {sid : Nat} (c2 : Ctx) (s2 : Nat) {st : Compiler}
    (hmem : (ctx, sid) ∈ W)
    (hn : unvisited g W st * (R + 1) + rank (ctx, sid) ≤ n)
    (hch : gatherChildren g ctx sid = [(c2, s2)])
    (hregF : isRegB g sid = false)
    (heq : ∀ f (stx : Compiler), gatherRegs g (f + 1) sid ctx stx =
      gatherRegs g f s2 c2 stx) :
    GatherTotal g W st ctx sid := by
  have hqmem : (c2, s2) ∈ W := by
    refine hclosed _ hmem _ ?_
    rw [hch]
    exact List.mem_singleton.mpr rfl
  have hqrank : rank (c2, s2) < rank (ctx, sid) := by
    refine hdec _ hmem hregF _ ?_
    rw [hch]
    exact List.mem_singleton.mpr rfl
  have hm : unvisited g W st * (R + 1) + rank (c2, s2) < n :=
    measure_sibling_lt (Nat.le_refl _) hqrank hn
  obtain ⟨F, st', hgr, hmono, hU⟩ := ih _ hm st c2 s2 hqmem (Nat.le_refl _)
  exact ⟨F + 1, st', by rw [heq]; exact hgr, hmono, hU⟩

theorem gatherRegs_total_two {g : graph.Graph} {W : List (Ctx × Nat)}
    {rank : Ctx × Nat → Nat} {R n : Nat}
    (hclosed : ∀ p ∈ W, ∀ q ∈ gatherChildren g p.1 p.2, q ∈ W)
    (hdec : ∀ p ∈ W, isRegB g p.2 = false →
      ∀ q ∈ gatherChildren g p.1 p.2, rank q < rank p)
    (ih : ∀ m, m < n → ∀ (st : Compiler) (ctx : Ctx) (sid : Nat),
      (ctx, sid) ∈ W → unvisited g W st * (R + 1) + rank (ctx, sid) ≤ m →
      GatherTotal g W st ctx sid)
    {ctx : Ctx} {sid : Nat} (l r : Nat) {st : Compiler}
    (hmem : (ctx, sid) ∈ W)
    (hn : unvisited g W st * (R + 1) + rank (ctx, sid) ≤ n)
    (hch : gatherChildren g ctx sid = [(ctx, l), (ctx, r)])
    (hregF : isRegB g sid = false)
    (heq : ∀ f (stx : Compiler), gatherRegs g (f + 1) sid ctx stx =
      (gatherRegs g f l ctx stx).bind fun st1 => gatherRegs g f r ctx st1) :
    GatherTotal g W st ctx sid := by
  have hq1mem : (ctx, l) ∈ W := by
    refine hclosed _ hmem _ ?_
    rw [hch]
    exact List.mem_cons_self _ _
  have hq2mem : (ctx, r) ∈ W := by
    refine hclosed _ hmem _ ?_
    rw [hch]
    exact List.mem_cons_of_mem _ (List.mem_singleton.mpr rfl)
  have hq1rank : rank (ctx, l) < rank (ctx, sid) := by
    refine hdec _ hmem hregF _ ?_
    rw [hch]
    exact List.mem_cons_self _ _
  have hq2rank : rank (ctx, r) < rank (ctx, sid) := by
    refine hdec _ hmem hregF _ ?_
    rw [hch]
    exact List.mem_cons_of_mem _ (List.mem_singleton.mpr rfl)
  have hm1 : unvisited g W st * (R + 1) + rank (ctx, l) < n :=
    measure_sibling_lt (Nat.le_refl _) hq1rank hn
  obtain ⟨F1, st1, hgr1, hmono1, hU1⟩ := ih _ hm1 st ctx l hq1mem (Nat.le_refl _)
  have hm2 : unvisited g W st1 * (R + 1) + rank (ctx, r) < n :=
    measure_sibling_lt hU1 hq2rank hn
  obtain ⟨F2, st2, hgr2, hmono2, hU2⟩ := ih _ hm2 st1 ctx r hq2mem (Nat.le_refl _)
  refine ⟨max F1 F2 + 1, st2, ?_, regsMono_trans hmono1 hmono2,
    Nat.le_trans hU2 hU1⟩
  rw [heq]
  rw [gatherRegs_fuel_le (Nat.le_max_left F1 F2) hgr1]
  exact gatherRegs_fuel_le (Nat.le_max_right F1 F2) hgr2

/-- C10 (auxiliary): the discovery pass terminates, with explicit fuel
accounting, on any node of a closed, finite, panic-free node set `W` whose
combinational (non-register) edges strictly decrease a bounded rank —
i.e. on any finite graph whose every cycle passes through a `Reg`. -/
theorem gatherRegs_total_aux {g : graph.Graph} {W : List (Ctx × Nat)}
    {rank : Ctx × Nat → Nat} {R : Nat} (hWnd : W.Nodup)
    (hclosed : ∀ p ∈ W, ∀ q ∈ gatherChildren g p.1 p.2, q ∈ W)
    (hok : ∀ p ∈ W, nodeOk g p.1 p.2 = true)
    (hrank : ∀ p ∈ W, rank p ≤ R)
    (hdec : ∀ p ∈ W, isRegB g p.2 = false →
      ∀ q ∈ gatherChildren g p.1 p.2, rank q < rank p) :
    ∀ (n : Nat) (st : Compiler) (ctx : Ctx) (sid : Nat), (ctx, sid) ∈ W →
      unvisited g W st * (R + 1) + rank (ctx, sid) ≤ n →
      GatherTotal g W st ctx sid := by
  intro n
  induction n using Nat.strong_induction_on with
  | _ n ih =>
  intro st ctx sid hmem hn
  have hok' := hok _ hmem
  rcases hsd : g.signals[sid]? with _ | sd
  · rw [nodeOk.eq_def] at hok'
    simp only [hsd] at hok'
    cases hok'
  cases sd with
  | Lit value bitWidth =>
    exact ⟨1, st, gatherRegs_eq_lit hsd, regsMono_rfl st, Nat.le_refl _⟩
  | Input name bitWidth =>
    cases ctx with
    | nil => exact ⟨1, st, gatherRegs_eq_input_root hsd, regsMono_rfl st,
        Nat.le_refl _⟩
    | cons inst parent =>
      rw [nodeOk.eq_def] at hok'
      simp only [hsd] at hok'
      rcases hi : g.instances[inst]? with _ | i
      · simp only [hi] at hok'
        cases hok'
      simp only [hi] at hok'
      rcases hd : mapLookup name i.drivenInputs with _ | d
      · simp [hd] at hok'
      refine gatherRegs_total_one hclosed hdec ih parent d hmem hn ?_ ?_ ?_
      · simp [gatherChildren, hsd, hi, hd]
      · simp [isRegB, hsd]
      · intro f stx
        rw [gatherRegs_eq_input_nonroot hsd, hi]
        simp only [Option.some_bind]
        rw [hd]
        simp only [Option.some_bind]
  | Reg data =>
    rw [nodeOk.eq_def] at hok'
    simp only [hsd] at hok'
    rcases hrd : g.regDatas[data]? with _ | rd
    · simp only [hrd] at hok'
      cases hok'
    simp only [hrd] at hok'
    rcases hnxt : rd.next with _ | nxt
    · simp [hnxt] at hok'
    rcases hcr : mapLookup (ctx, sid) st.regs with _ | cr
    · -- not yet discovered: insert, then recurse into the next driver
      have hregT : isRegB g sid = true := by simp [isRegB, hsd]
      have hqmem : (ctx, nxt) ∈ W := by
        refine hclosed _ hmem _ ?_
        simp [gatherChildren, hsd, hrd, hnxt]
      have hmono0 : regsMono st { st with regs := st.regs ++
          [((ctx, sid),
            { data := data,
              valueName := "__reg_" ++ rd.name ++ "_" ++ Nat.repr st.regs.length,
              nextName := ("__reg_" ++ rd.name ++ "_" ++
                Nat.repr st.regs.length) ++ "_next" })] } :=
        (@regsInsert_pres st (ctx, sid) data rd hcr).1
      have hUlt : unvisited g W { st with regs := st.regs ++
          [((ctx, sid),
            { data := data,
              valueName := "__reg_" ++ rd.name ++ "_" ++ Nat.repr st.regs.length,
              nextName := ("__reg_" ++ rd.name ++ "_" ++
                Nat.repr st.regs.length) ++ "_next" })] } < unvisited g W st :=
        unvisited_insert_lt hWnd hmem hregT hcr
          (mapLookup_append_self hcr _) hmono0
      have hm : unvisited g W { st with regs := st.regs ++
          [((ctx, sid),
            { data := data,
              valueName := "__reg_" ++ rd.name ++ "_" ++ Nat.repr st.regs.length,
              nextName := ("__reg_" ++ rd.name ++ "_" ++
                Nat.repr st.regs.length) ++ "_next" })] } * (R + 1) +
          rank (ctx, nxt) < n :=
        measure_reg_lt hUlt (hrank _ hqmem) hn
      obtain ⟨F, st', hgr, hmono, hU⟩ := ih _ hm _ ctx nxt hqmem (Nat.le_refl _)
      refine ⟨F + 1, st', ?_, regsMono_trans hmono0 hmono,
        Nat.le_trans hU (Nat.le_of_lt hUlt)⟩
      rw [gatherRegs_eq_reg hsd, hcr]
      simp only [hrd, Option.some_bind, hnxt]
      exact hgr
    · -- already discovered: early return
      refine ⟨1, st, ?_, regsMono_rfl st, Nat.le_refl _⟩
      rw [gatherRegs_eq_reg hsd, hcr]
  | UnOp source op =>
    refine gatherRegs_total_one hclosed hdec ih ctx source hmem hn ?_ ?_ ?_
    · simp [gatherChildren, hsd]
    · simp [isRegB, hsd]
    · intro f stx
      exact gatherRegs_eq_unop hsd
  | SimpleBinOp lhs rhs op =>
    refine gatherRegs_total_two hclosed hdec ih lhs rhs hmem hn ?_ ?_ ?_
    · simp [gatherChildren, hsd]
    · simp [isRegB, hsd]
    · intro f stx
      exact gatherRegs_eq_simpleBinOp hsd
  | AdditiveBinOp lhs rhs op =>
    refine gatherRegs_total_two hclosed hdec ih lhs rhs hmem hn ?_ ?_ ?_
    · simp [gatherChildren, hsd]
    · simp [isRegB, hsd]
    · intro f stx
      exact gatherRegs_eq_additiveBinOp hsd
  | ComparisonBinOp lhs rhs op =>
    refine gatherRegs_total_two hclosed hdec ih lhs rhs hmem hn ?_ ?_ ?_
    · simp [gatherChildren, hsd]
    · simp [isRegB, hsd]
    · intro f stx
      exact gatherRegs_eq_comparisonBinOp hsd
  | ShiftBinOp lhs rhs op =>
    refine gatherRegs_total_two hclosed hdec ih lhs rhs hmem hn ?_ ?_ ?_
    · simp [gatherChildren, hsd]
    · simp [isRegB, hsd]
    · intro f stx
      exact gatherRegs_eq_shiftBinOp hsd
  | Bits source rangeHigh rangeLow =>
    refine gatherRegs_total_one hclosed hdec ih ctx source hmem hn ?_ ?_ ?_
    · simp [gatherChildren, hsd]
    · simp [isRegB, hsd]
    · intro f stx
      exact gatherRegs_eq_bits hsd
  | Repeat source count =>
    refine gatherRegs_total_one hclosed hdec ih ctx source hmem hn ?_ ?_ ?_
    · simp [gatherChildren, hsd]
    · simp [isRegB, hsd]
    · intro f stx
      exact gatherRegs_eq_repeat hsd
  | Concat lhs rhs =>
    refine gatherRegs_total_two hclosed hdec ih lhs rhs hmem hn ?_ ?_ ?_
    · simp [gatherChildren, hsd]
    · simp [isRegB, hsd]
    · intro f stx
      exact gatherRegs_eq_concat hsd
  | Mux cond whenTrue whenFalse =>
    have hchm : gatherChildren g ctx sid =
        [(ctx, cond), (ctx, whenTrue), (ctx, whenFalse)] := by
      simp [gatherChildren, hsd]
    have hregF : isRegB g sid = false := by simp [isRegB, hsd]
    have hq1mem : (ctx, cond) ∈ W := by
      refine hclosed _ hmem _ ?_
      rw [hchm]
      exact List.mem_cons_self _ _
    have hq2mem : (ctx, whenTrue) ∈ W := by
      refine hclosed _ hmem _ ?_
      rw [hchm]
      exact List.mem_cons_of_mem _ (List.mem_cons_self _ _)
    have hq3mem : (ctx, whenFalse) ∈ W := by
      refine hclosed _ hmem _ ?_
      rw [hchm]
      exact List.mem_cons_of_mem _
        (List.mem_cons_of_mem _ (List.mem_singleton.mpr rfl))
    have hq1rank : rank (ctx, cond) < rank (ctx, sid) := by
      refine hdec _ hmem hregF _ ?_
      rw [hchm]
      exact List.mem_cons_self _ _
    have hq2rank : rank (ctx, whenTrue) < rank (ctx, sid) := by
      refine hdec _ hmem hregF _ ?_
      rw [hchm]
      exact List.mem_cons_of_mem _ (List.mem_cons_self _ _)
    have hq3rank : rank (ctx, whenFalse) < rank (ctx, sid) := by
      refine hdec _ hmem hregF _ ?_
      rw [hchm]
      exact List.mem_cons_of_mem _
        (List.mem_cons_of_mem _ (List.mem_singleton.mpr rfl))
    obtain ⟨F1, st1, hgr1, hmono1, hU1⟩ := ih _
      (measure_sibling_lt (Nat.le_refl _) hq1rank hn) st ctx cond hq1mem
      (Nat.le_refl _)
    obtain ⟨F2, st2, hgr2, hmono2, hU2⟩ := ih _
      (measure_sibling_lt hU1 hq2rank hn) st1 ctx whenTrue hq2mem
      (Nat.le_refl _)
    obtain ⟨F3, st3, hgr3, hmono3, hU3⟩ := ih _
      (measure_sibling_lt (Nat.le_trans hU2 hU1) hq3rank hn) st2 ctx whenFalse
      hq3mem (Nat.le_refl _)
    refine ⟨max F1 (max F2 F3) + 1, st3, ?_,
      regsMono_trans hmono1 (regsMono_trans hmono2 hmono3),
      Nat.le_trans hU3 (Nat.le_trans hU2 hU1)⟩
    rw [gatherRegs_eq_mux hsd]
    rw [gatherRegs_fuel_le (Nat.le_max_left F1 (max F2 F3)) hgr1]
    simp only [Option.some_bind]
    rw [gatherRegs_fuel_le
      (Nat.le_trans (Nat.le_max_left F2 F3) (Nat.le_max_right F1 (max F2 F3)))
      hgr2]
    simp only [Option.some_bind]
    exact gatherRegs_fuel_le
      (Nat.le_trans (Nat.le_max_right F2 F3) (Nat.le_max_right F1 (max F2 F3)))
      hgr3
  | InstanceOutput inst name =>
    rw [nodeOk.eq_def] at hok'
    simp only [hsd] at hok'
    rcases hi : g.instances[inst]? with _ | i
    · simp only [hi] at hok'
      cases hok'
    simp only [hi] at hok'
    rcases hm : g.modules[i.instantiatedModule]? with _ | m
    · simp only [hm] at hok'
      cases hok'
    simp only [hm] at hok'
    rcases hout : mapLookup name m.outputs with _ | out
    · simp [hout] at hok'
    refine gatherRegs_total_one hclosed hdec ih (inst :: ctx) out hmem hn ?_ ?_ ?_
    · simp [gatherChildren, hsd, hi, hm, hout]
    · simp [isRegB, hsd]
    · intro f stx
      rw [gatherRegs_eq_instanceOutput hsd, hi]
      simp only [Option.some_bind]
      rw [hm]
      simp only [Option.some_bind]
      rw [hout]
      simp only [Option.some_bind]

/-- C10: `gather_regs` terminates on every finite discovery graph in which
each cycle passes through at least one `Reg` node (including a register
whose next driver depends on its own value): the `Reg` key is inserted
before recursing into `data.next`, and the early return on a present key
cuts every such cycle.  Finiteness and the cycle condition are given by a
closed, duplicate-free node set `W` and a bounded rank that strictly
decreases along every non-register edge. -/
theorem gatherRegs_terminates {g : graph.Graph} (W : List (Ctx × Nat))
    (rank : Ctx × Nat → Nat) (R : Nat) (hWnd : W.Nodup)
    (hclosed : ∀ p ∈ W, ∀ q ∈ gatherChildren g p.1 p.2, q ∈ W)
    (hok : ∀ p ∈ W, nodeOk g p.1 p.2 = true)
    (hrank : ∀ p ∈ W, rank p ≤ R)
    (hdec : ∀ p ∈ W, isRegB g p.2 = false →
      ∀ q ∈ gatherChildren g p.1 p.2, rank q < rank p)
    {ctx : Ctx} {sid : Nat} (hstart : (ctx, sid) ∈ W) (st : Compiler) :
    ∃ F st', gatherRegs g F sid ctx st = some st' := by
  obtain ⟨F, st', hgr, _, _⟩ := gatherRegs_total_aux hWnd hclosed hok hrank hdec
    (unvisited g W st * (R + 1) + rank (ctx, sid)) st ctx sid hstart
    (Nat.le_refl _)
  exact ⟨F, st', hgr⟩

/-- C10 witness: the self-looping register terminates. -/
theorem gatherRegs_terminates_witness :
    ∃ F st', gatherRegs regLoopGraph F 0 [] Compiler.new = some st' :=
  gatherRegs_terminates [([], 0)] (fun _ => 0) 0 (List.nodup_singleton _)
    (by decide) (by decide) (by decide) (by decide)
    (List.mem_singleton.mpr rfl) Compiler.new

end sim
end Kaze

namespace Kaze
namespace sim

/-- One hierarchy-resolution step, exactly as `compile_signal` performs
it: a non-root `Input` resolves to the instance's driving signal
`instance.driven_inputs[name]` in the parent context, and an
`InstanceOutput` resolves to the instantiated module's output driver
`instance.instantiated_module.outputs[name]` in the child context.  Every
other node resolves to nothing: it is already inlined. -/
def resolveStep (g : graph.Graph) (ctx : Ctx) (sid : Nat) :
    Option (Ctx × Nat) :=
  match g.signals[sid]? with
  | some (.Input name _) =>
    match ctx with
    | inst :: parent => do
      let i ← g.instances[inst]?
      let d ← mapLookup name i.drivenInputs
      some (parent, d)
    | [] => none
  | some (.InstanceOutput inst name) => do
    let i ← g.instances[inst]?
    let m ← g.modules[i.instantiatedModule]?
    let out ← mapLookup name m.outputs
    some (inst :: ctx, out)
  | _ => none

/-- The fully-inlined-graph side of C4, following the spec's words: in the
inlined graph each `InstanceOutput` is replaced by the instantiated
module's output driver and each non-root `Input` by the instance's
driving signal, so a node `(ctx, sid)` whose hierarchy plumbing traverses
the listed `(context, signal)` keys stands for its resolved driver
`(ctx2, sid2)`. -/
inductive InlineChain (g : graph.Graph) :
    Ctx → Nat → List (Ctx × Nat) → Ctx → Nat → Prop
  | refl (ctx : Ctx) (sid : Nat) : InlineChain g ctx sid [] ctx sid
  | step {ctx : Ctx} {sid : Nat} {c : Ctx} {s : Nat}
      {keys : List (Ctx × Nat)} {ctx2 : Ctx} {sid2 : Nat}
      (hres : resolveStep g ctx sid = some (c, s))
      (hch : InlineChain g c s keys ctx2 sid2) :
      InlineChain g ctx sid ((ctx, sid) :: keys) ctx2 sid2

/-- The `Input` arm of `compile_signal` under a non-root context recurses
into the instance's driving signal under the parent context. -/
theorem compileSignalData_eq_input_nonroot {g : graph.Graph}
    {recur : Nat → Ctx → Compiler → Option (Expr × Compiler)}
    {w sid : Nat} {name : String} {bw : Nat} {inst : Nat} {parent : Ctx}
    {st : Compiler} :
    compileSignalData g recur w sid (.Input name bw) (inst :: parent) st =
      (g.instances[inst]?).bind fun i =>
        (mapLookup name i.drivenInputs).bind fun d =>
          recur d parent st := rfl

/-- The `InstanceOutput` arm of `compile_signal` recurses into the
instantiated module's output driver under the child context. -/
theorem compileSignalData_eq_instanceOutput {g : graph.Graph}
    {recur : Nat → Ctx → Compiler → Option (Expr × Compiler)}
    {w sid : Nat} {inst : Nat} {name : String} {ctx : Ctx}
    {st : Compiler} :
    compileSignalData g recur w sid (.InstanceOutput inst name) ctx st =
      (g.instances[inst]?).bind fun i =>
        (g.modules[i.instantiatedModule]?).bind fun m =>
          (mapLookup name m.outputs).bind fun out =>
            recur out (inst :: ctx) st := rfl

/-- C4: hierarchy inlining.  Compiling a signal whose hierarchy plumbing
(`InstanceOutput` nodes and non-root `Input` nodes, instances possibly
nested) resolves through the chain `keys` to the driver `(ctx2, sid2)`
produces exactly the result of compiling the fully-inlined graph, i.e. of
compiling the resolved driver itself: the same result `Expr`, the same
assignment stream, register table and temp counter, and a memo extended
only by the traversed hierarchy keys, each bound to that same `Expr` - no
opaque instance call is emitted. -/
theorem hierarchy_inlining_equiv {g : graph.Graph} {ctx : Ctx} {sid : Nat}
    {keys : List (Ctx × Nat)} {ctx2 : Ctx} {sid2 : Nat} {st : Compiler}
    {F : Nat} {e : Expr} {st1 : Compiler}
    (hch : InlineChain g ctx sid keys ctx2 sid2)
    (hfresh : ∀ k ∈ keys, mapLookup k st.signalExprs = none)
    (hinner : compileSignal g F sid2 ctx2 st = some (e, st1)) :
    compileSignal g (F + keys.length) sid ctx st =
      some (e, { st1 with
        signalExprs := keys.map (fun k => (k, e)) ++ st1.signalExprs }) := by
  revert hfresh hinner
  induction hch with
  | refl c0 s0 =>
    intro hfresh hinner
    exact hinner
  | step hres hch2 ih =>
    rename_i ctx0 sid0 c s keys0 cF sF
    intro hfresh hinner
    have hmemo : mapLookup (ctx0, sid0) st.signalExprs = none :=
      hfresh (ctx0, sid0) (List.mem_cons_self _ _)
    have hih := ih (fun k hk => hfresh k (List.mem_cons_of_mem _ hk)) hinner
    simp only [List.length_cons, List.map_cons, List.cons_append]
    rw [← Nat.add_assoc]
    rcases hsd : g.signals[sid0]? with _ | sd
    · simp [resolveStep, hsd] at hres
    cases sd with
    | Lit v bw => simp [resolveStep, hsd] at hres
    | Input name bw =>
      cases ctx0 with
      | nil => simp [resolveStep, hsd] at hres
      | cons inst parent =>
        simp only [resolveStep, hsd] at hres
        simp only [Option.bind_eq_bind', Option.bind_eq_some] at hres
        obtain ⟨i, hi, d, hd, hres⟩ := hres
        rw [Option.some.injEq, Prod.ext_iff] at hres
        obtain ⟨hpc, hds⟩ := hres
        subst hpc
        subst hds
        rw [compileSignal_eq_miss hmemo hsd, compileSignalData_eq_input_nonroot,
          hi]
        simp only [Option.some_bind]
        rw [hd]
        simp only [Option.some_bind]
        rw [hih]
    | Reg d => simp [resolveStep, hsd] at hres
    | UnOp source op => simp [resolveStep, hsd] at hres
    | SimpleBinOp lhs rhs op => simp [resolveStep, hsd] at hres
    | AdditiveBinOp lhs rhs op => simp [resolveStep, hsd] at hres
    | ComparisonBinOp lhs rhs op => simp [resolveStep, hsd] at hres
    | ShiftBinOp lhs rhs op => simp [resolveStep, hsd] at hres
    | Bits source rh rl => simp [resolveStep, hsd] at hres
    | Repeat source count => simp [resolveStep, hsd] at hres
    | Concat lhs rhs => simp [resolveStep, hsd] at hres
    | Mux cond wt wf => simp [resolveStep, hsd] at hres
    | InstanceOutput inst name =>
      simp only [resolveStep, hsd] at hres
      simp only [Option.bind_eq_bind', Option.bind_eq_some] at hres
      obtain ⟨i, hi, m, hm, out, hout, hres⟩ := hres
      rw [Option.some.injEq, Prod.ext_iff] at hres
      obtain ⟨hpc, hds⟩ := hres
      subst hpc
      subst hds
      rw [compileSignal_eq_miss hmemo hsd, compileSignalData_eq_instanceOutput,
        hi]
      simp only [Option.some_bind]
      rw [hm]
      simp only [Option.some_bind]
      rw [hout]
      simp only [Option.some_bind]
      rw [hih]

/-- A two-level hierarchy: signal 0 (root) is `InstanceOutput(0, "o")`,
whose module output driver is signal 1, the non-root `Input "i"` of the
instance, driven by signal 2, the root input `x`. -/
def hierGraph : graph.Graph :=
  { signals := [graph.SignalData.InstanceOutput 0 "o",
                graph.SignalData.Input "i" 32,
                graph.SignalData.Input "x" 32],
    regDatas := [],
    instances := [{ instantiatedModule := 0, drivenInputs := [("i", 2)] }],
    modules := [{ outputs := [("o", 1)] }] }

/-- C4 witness: in `hierGraph`, compiling the root `InstanceOutput` gives
exactly the `Expr` of the resolved driver (the root input `x`), with no
assignments and only the two chain keys added to the memo. -/
theorem hierarchy_inlining_equiv_witness :
    compileSignal hierGraph 3 0 [] Compiler.new =
      some (Expr.Ref "x" RefScope.Member,
        { regs := [],
          signalExprs :=
            [(([], 0), Expr.Ref "x" RefScope.Member),
             (([0], 1), Expr.Ref "x" RefScope.Member),
             (([], 2), Expr.Ref "x" RefScope.Member)],
          propAssignments := [], localCount := 0 }) :=
  hierarchy_inlining_equiv
    (show InlineChain hierGraph [] 0 [([], 0), ([0], 1)] [] 2 from
      InlineChain.step (by decide)
        (InlineChain.step (by decide) (InlineChain.refl [] 2)))
    (by decide)
    (show compileSignal hierGraph 1 2 [] Compiler.new =
        some (Expr.Ref "x" RefScope.Member,
          { regs := [],
            signalExprs := [(([], 2), Expr.Ref "x" RefScope.Member)],
            propAssignments := [], localCount := 0 })
      from by decide)

end sim
end Kaze
